import Mathlib

/-!
Verification of the 1-D grid generation pipeline of
`src/tidy3d/components/grid/grid_spec.py`.

Modelling conventions:
 - Real coordinates are modelled as rationals (exact arithmetic); arrays are lists.
 - `np.isclose` is modelled with numpy's default tolerances `rtol = 1e-5`,
   `atol = 1e-8`.
 - The one-float32-ulp widening of the domain band done with `np.nextafter` in
   `_postprocess_unaligned_grid` is modelled as the exact domain bounds
   (rational arithmetic has no rounding error to compensate for).
 - Python exceptions are modelled with an explicit error type in `Except`.
 - The `GradedMesher` (module `mesher.py`, not part of the sources under
   verification) is modelled as an oracle: its outputs (`parse_structures` /
   `insert_snapping_points` interval coordinates and
   `make_grid_multiple_intervals` step lists) are inputs to the embedded
   `AutoGrid` code, as a function of the `is_periodic` flag that
   `AutoGrid._make_coords_initial` passes to it.
-/

namespace GridSpecPy

/-- Python exceptions raised by the embedded code: `setupErr msg` models
`tidy3d.exceptions.SetupError` carrying its message, and `indexErr` models a
numpy `IndexError` from out-of-range indexing. -/
inductive PyErr where
  | setupErr (msg : String)
  | indexErr
  deriving DecidableEq, Repr

/-- The exception class of a raised error, forgetting the message. -/
def PyErr.kind : PyErr → String
  | .setupErr _ => "SetupError"
  | .indexErr => "IndexError"

/-- Model of `np.isclose` at numpy default tolerances:
`|a - b| <= atol + rtol * |b|` with `rtol = 1e-5`, `atol = 1e-8`. -/
def npIsClose (a b : ℚ) : Bool :=
  decide (|a - b| ≤ 1 / 100000000 + (1 / 100000) * |b|)

/-- Python sequence slicing `xs[start:stop]` including negative-index
normalization, used to model `bound_coords[ind - 1 : ind + 1]`. -/
def pyIdx (n start : ℤ) : ℤ :=
  if start < 0 then max (start + n) 0 else min start n

def pySlice (xs : List ℚ) (start stop : ℤ) : List ℚ :=
  (xs.drop (pyIdx xs.length start).toNat).take
    (pyIdx xs.length stop - pyIdx xs.length start).toNat

/-- `GridSpec1d._add_pml_to_bounds` (grid_spec.py lines 113-137): prepend
`nMinus` boundaries spaced by the first interior step and append `nPlus`
boundaries spaced by the last interior step; arrays with fewer than two
boundaries are returned untouched.  `np.arange(n, 0, -1)` is `[n, n-1, ..., 1]`
and `np.arange(1, n + 1)` is `[1, ..., n]`. -/
def addPmlToBounds (nMinus nPlus : ℕ) (bounds : List ℚ) : List ℚ :=
  if bounds.length < 2 then bounds
  else
    let firstStep := bounds.getD 1 0 - bounds.getD 0 0
    let lastStep := bounds.getLastD 0 - bounds.getD (bounds.length - 2) 0
    let addLeft := (List.range nMinus).map
      (fun i => bounds.getD 0 0 - ((nMinus - i : ℕ) : ℚ) * firstStep)
    let addRight := (List.range nPlus).map
      (fun i => bounds.getLastD 0 + ((i + 1 : ℕ) : ℚ) * lastStep)
    addLeft ++ bounds ++ addRight

/-- `UniformGrid._make_coords_initial` (grid_spec.py lines 237-269):
`num_cells = max(ceil(size / dl), 1)`, snapped step `size / num_cells` when
`size > 0` (else `dl`), boundaries `center - size/2 + arange(num_cells+1) * dl_snapped`. -/
def uniformCoords (center size dl : ℚ) : List ℚ :=
  let numCells : ℕ := max (⌈size / dl⌉.toNat) 1
  let dlSnapped := if 0 < size then size / (numCells : ℚ) else dl
  (List.range (numCells + 1)).map (fun i : ℕ => center - size / 2 + (i : ℚ) * dlSnapped)

/-- The axis letter used in error messages, `"xyz"[axis]`. -/
def axisName (axis : ℕ) : String :=
  if axis = 0 then "x" else if axis = 1 then "y" else "z"

/-- Message of the `SetupError` raised by `_postprocess_unaligned_grid`
(grid_spec.py lines 174-177) when the grid does not overlap the domain;
it names the offending axis. -/
def domainMismatchMsg (axis : ℕ) : String :=
  "Simulation domain does not overlap with the provided grid in "
    ++ axisName axis ++ " direction."

/-- The `while bound_coords[0] - dl_min >= bound_min` prepending loop of
`_postprocess_unaligned_grid` (grid_spec.py lines 196-197).  The Python loop
terminates precisely when the step is positive; `fuel` bounds the number of
iterations and the caller passes enough of it for the loop to run to
completion (lemma `padFrontLoop_stops`). -/
def padFrontLoop (boundMin dl : ℚ) : ℕ → List ℚ → List ℚ
  | 0, l => l
  | fuel + 1, l =>
      if boundMin ≤ l.headD 0 - dl then
        padFrontLoop boundMin dl fuel ((l.headD 0 - dl) :: l)
      else l

/-- The `while bound_coords[-1] + dl_max <= bound_max` appending loop of
`_postprocess_unaligned_grid` (grid_spec.py lines 198-199), fueled like
`padFrontLoop`. -/
def padBackLoop (boundMax dl : ℚ) : ℕ → List ℚ → List ℚ
  | 0, l => l
  | fuel + 1, l =>
      if l.getLastD 0 + dl ≤ boundMax then
        padBackLoop boundMax dl fuel (l ++ [l.getLastD 0 + dl])
      else l

/-- Fuel that strictly exceeds the number of iterations of the prepending loop
when `0 < dl` (the only case in which the Python loop terminates). -/
def frontFuel (boundMin dl h0 : ℚ) : ℕ :=
  if 0 < dl then (⌊(h0 - boundMin) / dl⌋ + 1).toNat else 0

/-- Fuel that strictly exceeds the number of iterations of the appending loop
when `0 < dl`. -/
def backFuel (boundMax dl l0 : ℚ) : ℕ :=
  if 0 < dl then (⌊(boundMax - l0) / dl⌋ + 1).toNat else 0

/-- The two filters of `_postprocess_unaligned_grid` (grid_spec.py lines
190-191): keep the supplied boundaries inside the domain band. -/
def bandFiltered (center size : ℚ) (boundCoords : List ℚ) : List ℚ :=
  (boundCoords.filter (fun x => decide (x ≤ center + size / 2))).filter
    (fun x => decide (center - size / 2 ≤ x))

/-- The two `while` padding loops of `_postprocess_unaligned_grid`
(grid_spec.py lines 193-199) applied to the band-filtered boundaries: repeat
the first observed step (`dl_min`) towards the lower domain end, then the
last observed step (`dl_max`) towards the upper one. -/
def paddedBand (center size : ℚ) (boundCoords : List ℚ) : List ℚ :=
  let boundMin := center - size / 2
  let boundMax := center + size / 2
  let f := bandFiltered center size boundCoords
  let dlMin := f.getD 1 0 - f.getD 0 0
  let dlMax := f.getLastD 0 - f.getD (f.length - 2) 0
  let fFront := padFrontLoop boundMin dlMin (frontFuel boundMin dlMin (f.headD 0)) f
  padBackLoop boundMax dlMax (backFuel boundMax dlMax (fFront.getLastD 0)) fFront

/-- The machine-error relaxation pass of `_postprocess_unaligned_grid`
(grid_spec.py lines 201-207) applied after the padding loops: restore one
boundary at either end when it fell `np.isclose`-within the domain end. -/
def relaxedBand (center size : ℚ) (boundCoords : List ℚ) : List ℚ :=
  let boundMin := center - size / 2
  let boundMax := center + size / 2
  let f := bandFiltered center size boundCoords
  let dlMin := f.getD 1 0 - f.getD 0 0
  let dlMax := f.getLastD 0 - f.getD (f.length - 2) 0
  let fBack := paddedBand center size boundCoords
  let res1 := if npIsClose (fBack.headD 0 - dlMin) boundMin then
      (fBack.headD 0 - dlMin) :: fBack else fBack
  if npIsClose (res1.getLastD 0 + dlMax) boundMax then
    res1 ++ [res1.getLastD 0 + dlMax] else res1

/-- `GridSpec1d._postprocess_unaligned_grid` (grid_spec.py lines 139-209).
`boundMin` / `boundMax` model the `np.nextafter`-widened domain ends as the
exact ends.  `np.searchsorted(a, v, side="right")` on a sorted array is the
number of entries `<= v`, modelled with `countP` (the Python call is only
meaningful on sorted input).  Indexing an array of fewer than two entries at
`[1]` or `[-2]` raises `IndexError`, modelled explicitly. -/
def postprocessUnalignedGrid (axis : ℕ) (center size : ℚ)
    (machineErrorRelaxation : Bool) (boundCoords : List ℚ) :
    Except PyErr (List ℚ) :=
  let boundMin := center - size / 2
  let boundMax := center + size / 2
  if boundCoords.length = 0 then .error .indexErr
  else if boundMax < boundCoords.headD 0 ∨ boundMin > boundCoords.getLastD 0 then
    .error (.setupErr (domainMismatchMsg axis))
  else if size = 0 then
    let ind := boundCoords.countP (fun x => decide (x ≤ center))
    let ind := if boundCoords.length ≤ ind then boundCoords.length - 1 else ind
    .ok (pySlice boundCoords ((ind : ℤ) - 1) ((ind : ℤ) + 1))
  else
    let f := bandFiltered center size boundCoords
    if f.length < 2 then .error .indexErr
    else if machineErrorRelaxation then .ok (relaxedBand center size boundCoords)
    else .ok (paddedBand center size boundCoords)

/-- Boundary construction of `CustomGrid._make_coords_initial`
(grid_spec.py lines 344-383) before postprocessing: cumulative sums of the
cell sizes (`np.append(0.0, np.cumsum(dl))`), re-centered on the simulation
center, or shifted by `custom_offset` when one is given. -/
def customStepsCoords (center : ℚ) (dl : List ℚ) (customOffset : Option ℚ) : List ℚ :=
  let bc := dl.scanl (· + ·) 0
  match customOffset with
  | none => bc.map (fun x => x + (center - bc.getLastD 0 / 2))
  | some off => bc.map (fun x => x + off)

/-- `np.argmin(np.abs(center - bound_coords))`: index of the first entry of
smallest absolute distance to `center`. -/
def argminAbs (center : ℚ) (coords : List ℚ) : ℕ :=
  (List.range coords.length).foldl
    (fun best i =>
      if |center - coords.getD i 0| < |center - coords.getD best 0| then i else best) 0

/-- Symmetry folding step of `GridSpec1d.make_coords` (grid_spec.py lines
76-82): shift so that the boundary nearest the domain center sits exactly at
the center, keep the boundaries at or above the center, and mirror all of them
but the center itself (`bound_coords[:0:-1]` is the reversed tail) about the
center. -/
def applySymmetry (center : ℚ) (bc : List ℚ) : List ℚ :=
  let k := argminAbs center bc
  let shifted := bc.map (fun x => x + (center - bc.getD k 0))
  let kept := shifted.filter (fun x => decide (center ≤ x))
  ((kept.drop 1).reverse.map (fun x => 2 * center - x)) ++ kept

/-- Message of the `SetupError` raised by `AutoGrid._make_coords_initial`
(grid_spec.py lines 521-526) when the graded boundaries fail to reproduce the
domain ends. -/
def autoGridMismatchMsg (axis : ℕ) : String :=
  "AutoGrid coordinates along axis " ++ toString axis
    ++ " do not match the simulation domain, indicating an unexpected error in the meshing."

/-- `np.append(0.0, np.cumsum(dl_list)) + interval_coords[0]`
(grid_spec.py lines 515-516): the raw cumulative boundaries produced from the
mesher step sizes. -/
def autoRawBounds (start : ℚ) (dls : List ℚ) : List ℚ :=
  (dls.scanl (· + ·) 0).map (fun x => x + start)

/-- `bound_coords[[0, -1]] = domain_bounds` (grid_spec.py line 527): overwrite
the first and last entry. -/
def setFirstLast (l : List ℚ) (lo hi : ℚ) : List ℚ :=
  (l.set 0 lo).set (l.length - 1) hi

/-- Tail of `AutoGrid._make_coords_initial` (grid_spec.py lines 514-529) after
the external mesher calls: build the cumulative boundaries, raise `SetupError`
if either end is not `np.isclose` to the corresponding domain end, otherwise
snap both ends exactly onto the domain ends. -/
def autoFinalize (axis : ℕ) (lo hi start : ℚ) (dls : List ℚ) :
    Except PyErr (List ℚ) :=
  let raw := autoRawBounds start dls
  if npIsClose (raw.headD 0) lo && npIsClose (raw.getLastD 0) hi then
    .ok (setFirstLast raw lo hi)
  else .error (.setupErr (autoGridMismatchMsg axis))

/-- Outputs of the external `GradedMesher` calls inside
`AutoGrid._make_coords_initial` (grid_spec.py lines 489-512): the flattened
interval coordinates after `parse_structures` / `insert_snapping_points`, and
the flattened concatenation of the per-interval step lists returned by
`make_grid_multiple_intervals`. -/
structure AutoOut where
  intervalCoords : List ℚ
  dlList : List ℚ

/-- The four per-axis strategies of `GridType` (grid_spec.py line 532).  The
`autoG` case carries the external mesher results as a function of the
`is_periodic` flag that `AutoGrid._make_coords_initial` forwards to
`make_grid_multiple_intervals`, plus the `min_steps_per_wvl` field used by the
2D-like single-pixel branch. -/
inductive GridStrategy where
  | uniformG (dl : ℚ)
  | customBoundaries (coords : List ℚ)
  | customSteps (dl : List ℚ) (customOffset : Option ℚ)
  | autoG (minStepsPerWvl : ℚ) (mesher : Bool → AutoOut)

/-- Dispatch of `_make_coords_initial` over the four strategies
(`UniformGrid` lines 237-269, `CustomGridBoundaries` lines 287-313,
`CustomGrid` lines 344-383, `AutoGrid` lines 441-529).  For `AutoGrid` the
domain is first folded to its positive half along every symmetric dimension
(lines 474-480); only this axis matters for the returned coordinates.  When
the mesher reports a single interval coordinate, the 2D-like single-pixel
branch (lines 502-504) returns one cell of width `wavelength / min_steps_per_wvl`
centered on the (folded) domain center. -/
def makeCoordsInitial (axis : ℕ) (center size wavelength : ℚ) (symAxis : ℤ)
    (isPeriodic : Bool) : GridStrategy → Except PyErr (List ℚ)
  | .uniformG dl => .ok (uniformCoords center size dl)
  | .customBoundaries coords => postprocessUnalignedGrid axis center size false coords
  | .customSteps dl off =>
      postprocessUnalignedGrid axis center size off.isSome (customStepsCoords center dl off)
  | .autoG minSteps mesher =>
      let symCent := if symAxis = 0 then center else center + size / 4
      let symSize := if symAxis = 0 then size else size / 2
      let out := mesher isPeriodic
      if out.intervalCoords.length = 1 then
        let dl := wavelength / minSteps
        .ok [symCent - dl / 2, symCent + dl / 2]
      else
        autoFinalize axis (symCent - symSize / 2) (symCent + symSize / 2)
          (out.intervalCoords.headD 0) out.dlList

/-- `GridSpec1d.make_coords` (grid_spec.py lines 26-86): compute the
`is_periodic` flag (`periodic and symmetry[axis] == 0`, line 63), generate the
initial boundaries, fold by symmetry when `symmetry[axis] != 0`, and add the
PML layers. -/
def makeCoords (axis : ℕ) (s : GridStrategy) (center size wavelength : ℚ)
    (symAxis : ℤ) (periodic : Bool) (numPml : ℕ × ℕ) : Except PyErr (List ℚ) := do
  let isPeriodic := periodic && (symAxis == 0)
  let bc ← makeCoordsInitial axis center size wavelength symAxis isPeriodic s
  let bc := if symAxis = 0 then bc else applySymmetry center bc
  .ok (addPmlToBounds numPml.1 numPml.2 bc)

/-- Wellformedness of the external mesher output, modelled from the spec: the
`GradedStepSynthesizer` returns positive step sizes whose cumulative
boundaries reproduce the domain ends within tolerance and whose interior
neighbors of the two ends remain strictly inside the domain (steps are well
above the closeness tolerance), and the 2D-like single-pixel branch receives
a positive pixel width. -/
def autoOutCheck (lo hi wavelength minSteps : ℚ) (out : AutoOut) : Bool :=
  if out.intervalCoords.length = 1 then decide (0 < wavelength / minSteps)
  else
    let raw := autoRawBounds (out.intervalCoords.headD 0) out.dlList
    decide (out.dlList ≠ []) && out.dlList.all (fun d => decide (0 < d)) &&
      decide (lo < raw.getD 1 0) && decide (raw.getD (raw.length - 2) 0 < hi) &&
      decide (lo < hi)

/-- Per-strategy hypotheses of the amended boundary-array invariant: positive
uniform step and non-negative domain size; strictly increasing user-supplied
boundaries with at least two entries; nonempty positive user-supplied step
sizes; wellformed mesher output (`autoOutCheck`, at the symmetry-folded
domain of grid_spec.py lines 474-480) for both values of the periodicity
flag. -/
def strategyCheck (center size wavelength : ℚ) (symAxis : ℤ) : GridStrategy → Bool
  | .uniformG dl => decide (0 < dl)
  | .customBoundaries coords =>
      decide (List.Pairwise (· < ·) coords) && decide (2 ≤ coords.length)
  | .customSteps dl _ => decide (dl ≠ []) && dl.all (fun d => decide (0 < d))
  | .autoG minSteps mesher =>
      let symCent := if symAxis = 0 then center else center + size / 4
      let symSize := if symAxis = 0 then size else size / 2
      autoOutCheck (symCent - symSize / 2) (symCent + symSize / 2) wavelength minSteps
        (mesher false) &&
      autoOutCheck (symCent - symSize / 2) (symCent + symSize / 2) wavelength minSteps
        (mesher true)

/-- Decidable form of the extra hypothesis the amended boundary-array
invariant needs on an axis of non-zero symmetry: the initial boundary nearest
the domain center must not be its last boundary, otherwise the fold of
grid_spec.py lines 80-82 keeps a single boundary. -/
def symFoldCheck (center : ℚ) (r : Except PyErr (List ℚ)) : Bool :=
  match r with
  | .ok bc => decide (argminAbs center bc + 2 ≤ bc.length)
  | .error _ => true

/-- Message of the `SetupError` raised by `GridSpec.wavelength_from_sources`
(grid_spec.py lines 631-634) when no source is supplied. -/
def waveNoSourceMsg : String :=
  "Automatic grid generation requires the input of wavelength or sources."

/-- Message of the `SetupError` raised by `GridSpec.wavelength_from_sources`
(grid_spec.py lines 640-644) when source central frequencies differ. -/
def multiFreqMsg : String :=
  "Sources of different central frequencies are supplied. Please supply a wavelength value for grid_spec."

/-- Speed of light `C_0` of `tidy3d.constants` (module not under the verified
sources), in micrometers per second. -/
def C_0 : ℚ := 299792458000000

/-- `GridSpec.wavelength_from_sources` (grid_spec.py lines 625-646).  Each
source contributes its central frequency `source.source_time.freq0`, so the
function is modelled on the list of central frequencies. -/
def wavelengthFromSources (freqs : List ℚ) : Except PyErr ℚ :=
  if freqs.length = 0 then .error (.setupErr waveNoSourceMsg)
  else if !(freqs.all (fun f => npIsClose f (freqs.headD 0))) then
    .error (.setupErr multiFreqMsg)
  else .ok (C_0 / freqs.headD 0)

/-- Sequencing skeleton of `GridSpec.make_grid` (grid_spec.py lines 670-746):
the wavelength is resolved first (lines 699-703, deriving it from the sources
exactly when none is given and some axis uses `AutoGrid`); only afterwards is
the per-axis generation (`make_coords` of each per-axis strategy, abstracted
here as `gen`) run for the three axes. -/
def makeGrid (wavelength : Option ℚ) (autoGridUsed : Bool) (freqs : List ℚ)
    (gen : Fin 3 → Option ℚ → Except PyErr (List ℚ)) :
    Except PyErr (List (List ℚ)) := do
  let wl ← match wavelength, autoGridUsed with
    | none, true => (wavelengthFromSources freqs).map some
    | w, _ => .ok w
  let cx ← gen 0 wl
  let cy ← gen 1 wl
  let cz ← gen 2 wl
  .ok [cx, cy, cz]

/-! ### Helper lemmas about lists of rationals -/

theorem getLastD_eq_getD {l : List ℚ} (h : l ≠ []) (d e : ℚ) :
    l.getLastD d = l.getD (l.length - 1) e := by
  have hlen : l.length - 1 < l.length := by
    cases l with
    | nil => exact absurd rfl h
    | cons a t => simp
  rw [List.getLastD_eq_getLast?, List.getLast?_eq_getElem?]
  simp [List.getElem?_eq_getElem hlen]

theorem headD_eq_getD {l : List ℚ} (h : l ≠ []) (d e : ℚ) :
    l.headD d = l.getD 0 e := by
  cases l with
  | nil => exact absurd rfl h
  | cons a t => rfl

theorem getLastD_cons_of_ne_nil {l : List ℚ} (h : l ≠ []) (x : ℚ) :
    (x :: l).getLastD 0 = l.getLastD 0 := by
  cases l with
  | nil => exact absurd rfl h
  | cons a t =>
    rw [List.getLastD_cons, getLastD_eq_getD (l := a :: t) (by simp) x 0,
      getLastD_eq_getD (l := a :: t) (by simp) 0 0]

theorem getLastD_append_singleton (l : List ℚ) (x : ℚ) :
    (l ++ [x]).getLastD 0 = x :=
  List.getLastD_concat _ _ _

theorem headD_append_of_ne_nil {l : List ℚ} (h : l ≠ []) (t : List ℚ) :
    (l ++ t).headD 0 = l.headD 0 := by
  cases l with
  | nil => exact absurd rfl h
  | cons a u => rfl

theorem ne_nil_of_suffix {l r : List ℚ} (h : l <:+ r) (hne : l ≠ []) : r ≠ [] := by
  obtain ⟨t, rfl⟩ := h
  intro hc
  exact hne (List.append_eq_nil.mp hc).2

theorem ne_nil_of_startsWith {l r : List ℚ} (h : l <+: r) (hne : l ≠ []) : r ≠ [] := by
  obtain ⟨t, rfl⟩ := h
  intro hc
  exact hne (List.append_eq_nil.mp hc).1

theorem headD_le_of_mem {l : List ℚ} (hs : l.Pairwise (· < ·)) {x : ℚ} (hx : x ∈ l) :
    l.headD 0 ≤ x := by
  cases l with
  | nil => cases hx
  | cons a t =>
    rcases List.mem_cons.mp hx with rfl | hx
    · exact le_rfl
    · exact le_of_lt ((List.pairwise_cons.mp hs).1 x hx)

theorem le_getLastD_of_mem {l : List ℚ} (hs : l.Pairwise (· < ·)) {x : ℚ} (hx : x ∈ l) :
    x ≤ l.getLastD 0 := by
  obtain ⟨i, hi, rfl⟩ := List.mem_iff_getElem.mp hx
  have hne : l ≠ [] := by
    intro hc
    subst hc
    exact absurd hi (by simp)
  rw [getLastD_eq_getD hne 0 0, List.getD_eq_getElem _ _ (by omega)]
  rcases Nat.lt_or_ge i (l.length - 1) with hlt | hge
  · exact le_of_lt (List.pairwise_iff_getElem.mp hs i (l.length - 1) hi (by omega) hlt)
  · have hEq : i = l.length - 1 := by omega
    subst hEq
    exact le_rfl

theorem rangeMap_getD (n : ℕ) (f : ℕ → ℚ) (i : ℕ) (d : ℚ) :
    ((List.range n).map f).getD i d = if i < n then f i else d := by
  by_cases h : i < n
  · rw [List.getD_eq_getElem _ _ (by simpa using h)]
    simp [h]
  · rw [List.getD_eq_default _ _ (by simpa using Nat.le_of_not_lt h)]
    simp [h]

/-! ### Lemmas about the two padding loops of `_postprocess_unaligned_grid` -/

theorem padFrontLoop_suffix (bmin dl : ℚ) (fuel : ℕ) (l : List ℚ) :
    l <:+ padFrontLoop bmin dl fuel l := by
  induction fuel generalizing l with
  | zero => exact List.suffix_rfl
  | succ n ih =>
    rw [padFrontLoop]
    split
    · exact (List.suffix_cons _ l).trans (ih _)
    · exact List.suffix_rfl

theorem padFrontLoop_headD_ge (bmin dl : ℚ) (fuel : ℕ) (l : List ℚ)
    (h : bmin ≤ l.headD 0) : bmin ≤ (padFrontLoop bmin dl fuel l).headD 0 := by
  induction fuel generalizing l with
  | zero => exact h
  | succ n ih =>
    rw [padFrontLoop]
    split
    · next g => exact ih _ (by simpa using g)
    · exact h

theorem padFrontLoop_pairwise (bmin dl : ℚ) (hdl : 0 < dl) (fuel : ℕ) :
    ∀ l : List ℚ, l.Pairwise (· < ·) →
      (padFrontLoop bmin dl fuel l).Pairwise (· < ·) := by
  induction fuel with
  | zero => exact fun l hs => hs
  | succ n ih =>
    intro l hs
    rw [padFrontLoop]
    split
    · apply ih
      refine List.pairwise_cons.mpr ⟨?_, hs⟩
      intro b hb
      have hle : l.headD 0 ≤ b := headD_le_of_mem hs hb
      linarith
    · exact hs

theorem padFrontLoop_getLastD (bmin dl : ℚ) (fuel : ℕ) :
    ∀ l : List ℚ, l ≠ [] →
      (padFrontLoop bmin dl fuel l).getLastD 0 = l.getLastD 0 := by
  induction fuel with
  | zero => exact fun l _ => rfl
  | succ n ih =>
    intro l hne
    rw [padFrontLoop]
    split
    · rw [ih _ (by simp), getLastD_cons_of_ne_nil hne]
    · rfl

theorem padFrontLoop_stops (bmin dl : ℚ) (hdl : 0 < dl) :
    ∀ (fuel : ℕ) (l : List ℚ), (l.headD 0 - bmin) / dl < (fuel : ℚ) →
      (padFrontLoop bmin dl fuel l).headD 0 - dl < bmin := by
  intro fuel
  induction fuel with
  | zero =>
    intro l h
    have h0 : l.headD 0 - bmin < 0 := by
      by_contra hc
      push_neg at hc
      have := div_nonneg hc (le_of_lt hdl)
      simp only [Nat.cast_zero] at h
      linarith
    simp only [padFrontLoop]
    linarith
  | succ n ih =>
    intro l h
    rw [padFrontLoop]
    split
    · next g =>
      apply ih
      have hstep : ((l.headD 0 - dl) - bmin) / dl = (l.headD 0 - bmin) / dl - 1 := by
        field_simp
        ring
      rw [List.headD_cons, hstep]
      push_cast at h ⊢
      linarith
    · next g =>
      push_neg at g
      linarith

theorem padBackLoop_startsWith (bmax dl : ℚ) (fuel : ℕ) (l : List ℚ) :
    l <+: padBackLoop bmax dl fuel l := by
  induction fuel generalizing l with
  | zero => exact List.prefix_rfl
  | succ n ih =>
    rw [padBackLoop]
    split
    · exact (List.prefix_append l _).trans (ih _)
    · exact List.prefix_rfl

theorem padBackLoop_headD (bmax dl : ℚ) (fuel : ℕ) :
    ∀ l : List ℚ, l ≠ [] →
      (padBackLoop bmax dl fuel l).headD 0 = l.headD 0 := by
  induction fuel with
  | zero => exact fun l _ => rfl
  | succ n ih =>
    intro l hne
    rw [padBackLoop]
    split
    · rw [ih _ (by simp [hne]), headD_append_of_ne_nil hne]
    · rfl

theorem padBackLoop_lastD_le (bmax dl : ℚ) (fuel : ℕ) :
    ∀ l : List ℚ, l.getLastD 0 ≤ bmax →
      (padBackLoop bmax dl fuel l).getLastD 0 ≤ bmax := by
  induction fuel with
  | zero => exact fun l h => h
  | succ n ih =>
    intro l h
    rw [padBackLoop]
    split
    · next g => exact ih _ (by rw [getLastD_append_singleton]; exact g)
    · exact h

theorem padBackLoop_pairwise (bmax dl : ℚ) (hdl : 0 < dl) (fuel : ℕ) :
    ∀ l : List ℚ, l.Pairwise (· < ·) →
      (padBackLoop bmax dl fuel l).Pairwise (· < ·) := by
  induction fuel with
  | zero => exact fun l hs => hs
  | succ n ih =>
    intro l hs
    rw [padBackLoop]
    split
    · apply ih
      refine List.pairwise_append.mpr ⟨hs, List.pairwise_singleton _ _, ?_⟩
      intro a ha b hb
      have hb' : b = l.getLastD 0 + dl := by simpa using hb
      have hle : a ≤ l.getLastD 0 := le_getLastD_of_mem hs ha
      rw [hb']
      linarith
    · exact hs

theorem padBackLoop_stops (bmax dl : ℚ) (hdl : 0 < dl) :
    ∀ (fuel : ℕ) (l : List ℚ), (bmax - l.getLastD 0) / dl < (fuel : ℚ) →
      bmax < (padBackLoop bmax dl fuel l).getLastD 0 + dl := by
  intro fuel
  induction fuel with
  | zero =>
    intro l h
    have h0 : bmax - l.getLastD 0 < 0 := by
      by_contra hc
      push_neg at hc
      have := div_nonneg hc (le_of_lt hdl)
      simp only [Nat.cast_zero] at h
      linarith
    simp only [padBackLoop]
    linarith
  | succ n ih =>
    intro l h
    rw [padBackLoop]
    split
    · next g =>
      apply ih
      rw [getLastD_append_singleton]
      have hstep : (bmax - (l.getLastD 0 + dl)) / dl = (bmax - l.getLastD 0) / dl - 1 := by
        field_simp
        ring
      rw [hstep]
      push_cast at h ⊢
      linarith
    · next g =>
      push_neg at g
      linarith

/-! ### Membership and indexing lemmas -/

theorem headD_mem {l : List ℚ} (h : l ≠ []) : l.headD 0 ∈ l := by
  cases l with
  | nil => exact absurd rfl h
  | cons a t => exact List.mem_cons_self a t

theorem getLastD_mem {l : List ℚ} (h : l ≠ []) : l.getLastD 0 ∈ l := by
  have hlen : l.length - 1 < l.length := by
    cases l with
    | nil => exact absurd rfl h
    | cons a t => simp
  rw [getLastD_eq_getD h 0 0, List.getD_eq_getElem _ _ hlen]
  exact List.getElem_mem hlen

theorem sorted_getD_lt {l : List ℚ} (hs : l.Pairwise (· < ·)) {i j : ℕ}
    (hij : i < j) (hj : j < l.length) : l.getD i 0 < l.getD j 0 := by
  rw [List.getD_eq_getElem _ _ (by omega), List.getD_eq_getElem _ _ hj]
  exact List.pairwise_iff_getElem.mp hs i j (by omega) hj hij

theorem take_two_drop :
    ∀ (l : List ℚ) (j : ℕ), j + 1 < l.length →
      (l.drop j).take 2 = [l.getD j 0, l.getD (j + 1) 0] := by
  intro l
  induction l with
  | nil => intro j h; simp at h
  | cons a t ih =>
    intro j h
    cases j with
    | zero =>
      cases t with
      | nil => simp at h
      | cons b u => simp [List.getD]
    | succ m =>
      have := ih m (by simpa using h)
      simpa [List.getD] using this

theorem sorted_countP_le_iff {l : List ℚ} (hs : l.Pairwise (· < ·)) (c : ℚ) :
    ∀ j, (hj : j < l.length) →
      (l[j] ≤ c ↔ j < l.countP (fun x => decide (x ≤ c))) := by
  induction l with
  | nil => intro j hj; simp at hj
  | cons a t ih =>
    have hcons := List.pairwise_cons.mp hs
    intro j hj
    by_cases ha : a ≤ c
    · have hpa : (fun x => decide (x ≤ c)) a = true := by simpa using ha
      rw [List.countP_cons, if_pos hpa]
      cases j with
      | zero => simpa using ha
      | succ m =>
        have := ih hcons.2 m (by simpa using hj)
        simpa [Nat.succ_lt_succ_iff] using this
    · have hc0 : (a :: t).countP (fun x => decide (x ≤ c)) = 0 := by
        rw [List.countP_eq_zero]
        intro x hx
        rcases List.mem_cons.mp hx with rfl | hx
        · simpa using ha
        · have : a < x := hcons.1 x hx
          simp only [decide_eq_true_eq]
          intro hxc
          exact ha (le_trans (le_of_lt this) hxc)
      rw [hc0]
      simp only [Nat.not_lt_zero, iff_false]
      cases j with
      | zero => simpa using ha
      | succ m =>
        have hm : m < t.length := by simpa using hj
        have hmem : t[m] ∈ t := List.getElem_mem hm
        have : a < t[m] := hcons.1 _ hmem
        simp only [List.getElem_cons_succ]
        intro hxc
        exact ha (le_trans (le_of_lt this) hxc)

theorem pySlice_sublist (xs : List ℚ) (a b : ℤ) : List.Sublist (pySlice xs a b) xs := by
  unfold pySlice
  exact (List.take_sublist _ _).trans (List.drop_sublist _ _)

theorem pySlice_two (xs : List ℚ) (i : ℕ) (h1 : 1 ≤ i) (h2 : i + 1 ≤ xs.length) :
    pySlice xs ((i : ℤ) - 1) ((i : ℤ) + 1) = (xs.drop (i - 1)).take 2 := by
  unfold pySlice pyIdx
  rw [if_neg (by omega), if_neg (by omega)]
  congr 1
  · omega
  · congr 1
    omega

/-! ### In-band membership through the padding loops -/

theorem padFrontLoop_mem_band (bmin bmax dl : ℚ) (hdl : 0 < dl) (fuel : ℕ) :
    ∀ l : List ℚ, l ≠ [] → (∀ x ∈ l, bmin ≤ x ∧ x ≤ bmax) →
      ∀ x ∈ padFrontLoop bmin dl fuel l, bmin ≤ x ∧ x ≤ bmax := by
  induction fuel with
  | zero => exact fun l _ hband => hband
  | succ n ih =>
    intro l hne hband
    rw [padFrontLoop]
    split
    · next g =>
      apply ih _ (by simp)
      intro x hx
      rcases List.mem_cons.mp hx with rfl | hx
      · refine ⟨g, ?_⟩
        have := (hband _ (headD_mem hne)).2
        linarith
      · exact hband x hx
    · exact hband

theorem padBackLoop_mem_band (bmin bmax dl : ℚ) (hdl : 0 < dl) (fuel : ℕ) :
    ∀ l : List ℚ, l ≠ [] → (∀ x ∈ l, bmin ≤ x ∧ x ≤ bmax) →
      ∀ x ∈ padBackLoop bmax dl fuel l, bmin ≤ x ∧ x ≤ bmax := by
  induction fuel with
  | zero => exact fun l _ hband => hband
  | succ n ih =>
    intro l hne hband
    rw [padBackLoop]
    split
    · next g =>
      apply ih _ (by simp [hne])
      intro x hx
      rcases List.mem_append.mp hx with hx | hx
      · exact hband x hx
      · have hx' : x = l.getLastD 0 + dl := by simpa using hx
        refine ⟨?_, by rw [hx']; exact g⟩
        have := (hband _ (getLastD_mem hne)).1
        rw [hx']
        linarith
    · exact hband

/-! ### Structure of the positive-size branch of the reconciler -/

theorem bandFiltered_mem {center size : ℚ} {bc : List ℚ} {x : ℚ}
    (hx : x ∈ bandFiltered center size bc) :
    center - size / 2 ≤ x ∧ x ≤ center + size / 2 ∧ x ∈ bc := by
  unfold bandFiltered at hx
  rcases List.mem_filter.mp hx with ⟨hx1, hp2⟩
  rcases List.mem_filter.mp hx1 with ⟨hmem, hp1⟩
  simp only [decide_eq_true_eq] at hp1 hp2
  exact ⟨hp2, hp1, hmem⟩

theorem bandFiltered_pairwise {center size : ℚ} {bc : List ℚ}
    (hs : bc.Pairwise (· < ·)) :
    (bandFiltered center size bc).Pairwise (· < ·) :=
  (hs.filter _).filter _

theorem frontFuel_spec {bmin d0 h0 : ℚ} (hd : 0 < d0) (hh : bmin ≤ h0) :
    (h0 - bmin) / d0 < ((frontFuel bmin d0 h0 : ℕ) : ℚ) := by
  unfold frontFuel
  rw [if_pos hd]
  have h1 : (0 : ℤ) ≤ ⌊(h0 - bmin) / d0⌋ :=
    Int.floor_nonneg.mpr (div_nonneg (by linarith) (le_of_lt hd))
  have h2 : (h0 - bmin) / d0 < (⌊(h0 - bmin) / d0⌋ : ℚ) + 1 := Int.lt_floor_add_one _
  have h3 : (((⌊(h0 - bmin) / d0⌋ + 1).toNat : ℕ) : ℚ) = (⌊(h0 - bmin) / d0⌋ : ℚ) + 1 := by
    have h4 : ((⌊(h0 - bmin) / d0⌋ + 1).toNat : ℤ) = ⌊(h0 - bmin) / d0⌋ + 1 :=
      Int.toNat_of_nonneg (by omega)
    exact_mod_cast congrArg (fun z : ℤ => (z : ℚ)) h4
  rw [h3]
  exact h2

theorem backFuel_spec {bmax d1 l0 : ℚ} (hd : 0 < d1) (hl : l0 ≤ bmax) :
    (bmax - l0) / d1 < ((backFuel bmax d1 l0 : ℕ) : ℚ) := by
  unfold backFuel
  rw [if_pos hd]
  have h1 : (0 : ℤ) ≤ ⌊(bmax - l0) / d1⌋ :=
    Int.floor_nonneg.mpr (div_nonneg (by linarith) (le_of_lt hd))
  have h2 : (bmax - l0) / d1 < (⌊(bmax - l0) / d1⌋ : ℚ) + 1 := Int.lt_floor_add_one _
  have h3 : (((⌊(bmax - l0) / d1⌋ + 1).toNat : ℕ) : ℚ) = (⌊(bmax - l0) / d1⌋ : ℚ) + 1 := by
    have h4 : ((⌊(bmax - l0) / d1⌋ + 1).toNat : ℤ) = ⌊(bmax - l0) / d1⌋ + 1 :=
      Int.toNat_of_nonneg (by omega)
    exact_mod_cast congrArg (fun z : ℤ => (z : ℚ)) h4
  rw [h3]
  exact h2

theorem paddedBand_spec (center size : ℚ) (bc : List ℚ)
    (hs : bc.Pairwise (· < ·))
    (hf2 : 2 ≤ (bandFiltered center size bc).length) :
    (paddedBand center size bc).Pairwise (· < ·) ∧
    2 ≤ (paddedBand center size bc).length ∧
    0 < (bandFiltered center size bc).getD 1 0 - (bandFiltered center size bc).getD 0 0 ∧
    0 < (bandFiltered center size bc).getLastD 0 -
        (bandFiltered center size bc).getD ((bandFiltered center size bc).length - 2) 0 ∧
    center - size / 2 ≤ (paddedBand center size bc).headD 0 ∧
    (paddedBand center size bc).headD 0 -
      ((bandFiltered center size bc).getD 1 0 - (bandFiltered center size bc).getD 0 0) <
      center - size / 2 ∧
    (paddedBand center size bc).getLastD 0 ≤ center + size / 2 ∧
    center + size / 2 < (paddedBand center size bc).getLastD 0 +
      ((bandFiltered center size bc).getLastD 0 -
        (bandFiltered center size bc).getD ((bandFiltered center size bc).length - 2) 0) ∧
    (∀ x ∈ paddedBand center size bc,
      center - size / 2 ≤ x ∧ x ≤ center + size / 2) ∧
    (bandFiltered center size bc).IsInfix (paddedBand center size bc) := by
  set bmin := center - size / 2 with hbmin
  set bmax := center + size / 2 with hbmax
  set f := bandFiltered center size bc with hf
  set d0 := f.getD 1 0 - f.getD 0 0 with hd0
  set d1 := f.getLastD 0 - f.getD (f.length - 2) 0 with hd1
  have hfs : f.Pairwise (· < ·) := bandFiltered_pairwise hs
  have hfne : f ≠ [] := by
    intro hc
    rw [hc] at hf2
    simp at hf2
  have hd0pos : 0 < d0 := by
    have := sorted_getD_lt hfs (show 0 < 1 by omega) (by omega)
    rw [hd0]
    linarith
  have hd1pos : 0 < d1 := by
    have := sorted_getD_lt hfs (show f.length - 2 < f.length - 1 by omega) (by omega)
    rw [hd1, getLastD_eq_getD hfne 0 0]
    linarith
  have hfhead : bmin ≤ f.headD 0 ∧ f.headD 0 ≤ bmax := by
    have := bandFiltered_mem (headD_mem (l := f) hfne)
    exact ⟨this.1, this.2.1⟩
  have hflast : bmin ≤ f.getLastD 0 ∧ f.getLastD 0 ≤ bmax := by
    have := bandFiltered_mem (getLastD_mem (l := f) hfne)
    exact ⟨this.1, this.2.1⟩
  set fF := padFrontLoop bmin d0 (frontFuel bmin d0 (f.headD 0)) f with hfF
  have hfFne : fF ≠ [] := ne_nil_of_suffix (padFrontLoop_suffix _ _ _ _) hfne
  have hfFlast : fF.getLastD 0 = f.getLastD 0 := padFrontLoop_getLastD _ _ _ _ hfne
  have hfFsorted : fF.Pairwise (· < ·) := padFrontLoop_pairwise _ _ hd0pos _ _ hfs
  have hfFheadge : bmin ≤ fF.headD 0 := padFrontLoop_headD_ge _ _ _ _ hfhead.1
  have hfFheadlt : fF.headD 0 - d0 < bmin :=
    padFrontLoop_stops _ _ hd0pos _ _ (frontFuel_spec hd0pos hfhead.1)
  set fB := paddedBand center size bc with hfB
  have hfBeq : fB = padBackLoop bmax d1 (backFuel bmax d1 (fF.getLastD 0)) fF := rfl
  have hfBne : fB ≠ [] := by
    rw [hfBeq]
    exact ne_nil_of_startsWith (padBackLoop_startsWith _ _ _ _) hfFne
  have hfBsorted : fB.Pairwise (· < ·) := by
    rw [hfBeq]
    exact padBackLoop_pairwise _ _ hd1pos _ _ hfFsorted
  have hfBhead : fB.headD 0 = fF.headD 0 := by
    rw [hfBeq]
    exact padBackLoop_headD _ _ _ _ hfFne
  have hfBlastle : fB.getLastD 0 ≤ bmax := by
    rw [hfBeq]
    exact padBackLoop_lastD_le _ _ _ _ (by rw [hfFlast]; exact hflast.2)
  have hfBlastgt : bmax < fB.getLastD 0 + d1 := by
    rw [hfBeq]
    exact padBackLoop_stops _ _ hd1pos _ _
      (backFuel_spec hd1pos (by rw [hfFlast]; exact hflast.2))
  have hinfix : f.IsInfix fB := by
    rw [hfBeq]
    exact List.IsInfix.trans (padFrontLoop_suffix bmin d0 _ f).isInfix
      (padBackLoop_startsWith _ _ _ _).isInfix
  have hlen : 2 ≤ fB.length := le_trans hf2 hinfix.length_le
  have hband : ∀ x ∈ fB, bmin ≤ x ∧ x ≤ bmax := by
    rw [hfBeq]
    apply padBackLoop_mem_band bmin bmax d1 hd1pos _ _ hfFne
    apply padFrontLoop_mem_band bmin bmax d0 hd0pos _ _ hfne
    intro x hx
    have := bandFiltered_mem (hf ▸ hx)
    exact ⟨this.1, this.2.1⟩
  exact ⟨hfBsorted, hlen, hd0pos, hd1pos,
    by rw [← hfBhead] at hfFheadge; exact hfFheadge,
    by rw [← hfBhead] at hfFheadlt; exact hfFheadlt,
    hfBlastle, hfBlastgt, hband, hinfix⟩

theorem postprocess_pos_eq (axis : ℕ) (center size : ℚ) (relax : Bool) (bc : List ℚ)
    (h0 : ¬(bc.length = 0))
    (hov : ¬(center + size / 2 < bc.headD 0 ∨ center - size / 2 > bc.getLastD 0))
    (hsz : ¬(size = 0))
    (hfl : ¬((bandFiltered center size bc).length < 2)) :
    postprocessUnalignedGrid axis center size relax bc =
      .ok (if relax then relaxedBand center size bc else paddedBand center size bc) := by
  simp only [postprocessUnalignedGrid]
  rw [if_neg h0, if_neg hov, if_neg hsz, if_neg hfl]
  cases relax
  · rw [if_neg (by simp), if_neg (by simp)]
  · rw [if_pos rfl, if_pos rfl]

theorem postprocess_zero_size (axis : ℕ) (center : ℚ) (m : Bool) (bc : List ℚ)
    (hs : bc.Pairwise (· < ·)) (h2 : 2 ≤ bc.length)
    (hhead : bc.headD 0 ≤ center) (hlast : center ≤ bc.getLastD 0) :
    ∃ i, i + 1 < bc.length ∧
      postprocessUnalignedGrid axis center 0 m bc = .ok [bc.getD i 0, bc.getD (i + 1) 0] ∧
      bc.getD i 0 ≤ center ∧ center ≤ bc.getD (i + 1) 0 := by
  have hne : bc ≠ [] := by
    intro hc
    rw [hc] at h2
    simp at h2
  have h0 : ¬(bc.length = 0) := by
    intro hc
    omega
  have hov : ¬(center + 0 / 2 < bc.headD 0 ∨ center - 0 / 2 > bc.getLastD 0) := by
    push_neg
    constructor
    · simpa using hhead
    · simpa using hlast
  set n := bc.length with hn
  set ind0 := bc.countP (fun x => decide (x ≤ center)) with hind0
  have hiff := sorted_countP_le_iff hs center
  have hpos : 0 < ind0 := by
    have h00 := hiff 0 (by omega)
    rw [← List.getD_eq_getElem bc 0 (by omega)] at h00
    rw [hind0]
    exact h00.mp (by rw [← headD_eq_getD hne 0 0]; exact hhead)
  have hle : ind0 ≤ n := by
    rw [hind0, hn]
    exact List.countP_le_length _
  have hlast' : center ≤ bc.getD (n - 1) 0 := by
    rw [← getLastD_eq_getD hne 0 0]
    exact hlast
  by_cases hcl : n ≤ ind0
  · refine ⟨n - 2, by omega, ?_, ?_, ?_⟩
    · simp only [postprocessUnalignedGrid]
      rw [if_neg h0, if_neg hov, if_pos trivial, if_pos (by rw [← hind0, ← hn]; exact hcl)]
      rw [← hn, pySlice_two bc (n - 1) (by omega) (by omega)]
      have he : n - 1 - 1 = n - 2 := by omega
      rw [he, take_two_drop bc (n - 2) (by omega)]
    · have hj := hiff (n - 2) (by omega)
      rw [List.getD_eq_getElem bc 0 (by omega)]
      exact hj.mpr (by omega)
    · have he : n - 2 + 1 = n - 1 := by omega
      rw [he]
      exact hlast'
  · refine ⟨ind0 - 1, by omega, ?_, ?_, ?_⟩
    · simp only [postprocessUnalignedGrid]
      rw [if_neg h0, if_neg hov, if_pos trivial,
        if_neg (by rw [← hind0, ← hn]; exact hcl)]
      rw [← hind0, pySlice_two bc ind0 (by omega) (by omega),
        take_two_drop bc (ind0 - 1) (by omega)]
    · have hj := hiff (ind0 - 1) (by omega)
      rw [List.getD_eq_getElem bc 0 (by omega)]
      exact hj.mpr (by omega)
    · have he : ind0 - 1 + 1 = ind0 := by omega
      rw [he]
      have hj := hiff ind0 (by omega)
      have hnle : ¬(bc[ind0] ≤ center) := by
        intro hc
        exact absurd (hj.mp hc) (by omega)
      rw [List.getD_eq_getElem bc 0 (by omega)]
      linarith [not_le.mp hnle]

/-! ### Structure of the symmetry fold -/

theorem foldl_choice_mem (f : ℕ → ℕ → ℕ) (hf : ∀ b i, f b i = b ∨ f b i = i) :
    ∀ (l : List ℕ) (b : ℕ), l.foldl f b = b ∨ l.foldl f b ∈ l := by
  intro l
  induction l with
  | nil => intro b; exact Or.inl rfl
  | cons a t ih =>
    intro b
    rw [List.foldl_cons]
    rcases ih (f b a) with h | h
    · rcases hf b a with hb | hb
      · exact Or.inl (h.trans hb)
      · exact Or.inr (by rw [h, hb]; exact List.mem_cons_self a t)
    · exact Or.inr (List.mem_cons_of_mem a h)

theorem argminAbs_lt_length {center : ℚ} {bc : List ℚ} (h : bc ≠ []) :
    argminAbs center bc < bc.length := by
  have hlen : 0 < bc.length := List.length_pos.mpr h
  unfold argminAbs
  rcases foldl_choice_mem
      (fun best i =>
        if |center - bc.getD i 0| < |center - bc.getD best 0| then i else best)
      (fun b i => by
        simp only []
        split
        · exact Or.inr rfl
        · exact Or.inl rfl) (List.range bc.length) 0 with hres | hres
  · rw [hres]; exact hlen
  · exact List.mem_range.mp hres

theorem filter_eq_drop_of_threshold :
    ∀ (s : List ℚ) (p : ℚ → Bool) (k : ℕ),
      (∀ i, i < k → p (s.getD i 0) = false) →
      (∀ i, k ≤ i → i < s.length → p (s.getD i 0) = true) →
      s.filter p = s.drop k := by
  intro s
  induction s with
  | nil => intro p k _ _; simp
  | cons a t ih =>
    intro p k h1 h2
    cases k with
    | zero =>
      rw [List.drop_zero]
      apply List.filter_eq_self.mpr
      intro x hx
      obtain ⟨i, hi, rfl⟩ := List.mem_iff_getElem.mp hx
      rw [← List.getD_eq_getElem _ 0 hi]
      exact h2 i (Nat.zero_le i) hi
    | succ m =>
      have ha : p a = false := h1 0 (Nat.succ_pos m)
      rw [List.drop_succ_cons, List.filter_cons_of_neg (by rw [ha]; simp)]
      apply ih
      · intro i hi
        exact h1 (i + 1) (by omega)
      · intro i hi hilen
        exact h2 (i + 1) (by omega) (by simpa using hilen)

theorem headD_drop {l : List ℚ} {k : ℕ} (hk : k < l.length) :
    (l.drop k).headD 0 = l.getD k 0 := by
  rw [List.drop_eq_getElem_cons hk, List.headD_cons, List.getD_eq_getElem _ _ hk]

theorem eq_headD_cons_drop {l : List ℚ} (h : l ≠ []) :
    l = l.headD 0 :: l.drop 1 := by
  cases l with
  | nil => exact absurd rfl h
  | cons a t => rfl

/-- The fold of grid_spec.py lines 77-82 produces exactly the reflected
extension of the kept upper part, whose head is the center. -/
theorem applySymmetry_eq (center : ℚ) (bc : List ℚ) (hs : bc.Pairwise (· < ·))
    (hne : bc ≠ []) :
    ∃ kept : List ℚ,
      applySymmetry center bc =
        ((kept.drop 1).reverse.map (fun x => 2 * center - x)) ++ kept ∧
      kept.Pairwise (· < ·) ∧ kept ≠ [] ∧ kept.headD 0 = center ∧
      kept.length = bc.length - argminAbs center bc := by
  set k := argminAbs center bc with hkdef
  have hk : k < bc.length := argminAbs_lt_length hne
  set δ := center - bc.getD k 0 with hδ
  set shifted := bc.map (fun x => x + δ) with hsh
  have hshlen : shifted.length = bc.length := by rw [hsh]; simp
  have hgetD : ∀ i, i < bc.length → shifted.getD i 0 = bc.getD i 0 + δ := by
    intro i hi
    rw [hsh, List.getD_eq_getElem _ _ (by simpa using hi), List.getElem_map,
      List.getD_eq_getElem _ _ hi]
  have hshk : shifted.getD k 0 = center := by
    rw [hgetD k hk, hδ]
    ring
  have hshs : shifted.Pairwise (· < ·) := by
    rw [hsh]
    exact hs.map _ (fun a b hab => by linarith)
  have hfilter : shifted.filter (fun x => decide (center ≤ x)) = shifted.drop k := by
    apply filter_eq_drop_of_threshold
    · intro i hi
      have hilen : i < bc.length := lt_trans hi hk
      have : shifted.getD i 0 < shifted.getD k 0 :=
        sorted_getD_lt hshs hi (by omega)
      rw [hshk] at this
      simpa using not_le.mpr this
    · intro i hik hilen
      rw [hshlen] at hilen
      rcases Nat.eq_or_lt_of_le hik with rfl | hik'
      · rw [hshk]
        simp
      · have : shifted.getD k 0 < shifted.getD i 0 :=
          sorted_getD_lt hshs hik' (by omega)
        rw [hshk] at this
        simpa using le_of_lt this
  refine ⟨shifted.drop k, ?_, ?_, ?_, ?_, ?_⟩
  · simp only [applySymmetry]
    rw [← hkdef, ← hδ, ← hsh, hfilter]
  · exact hshs.sublist (List.drop_sublist _ _)
  · intro hc
    have := List.drop_eq_nil_iff.mp hc
    omega
  · rw [headD_drop (by omega), hshk]
  · rw [List.length_drop, hshlen]

/-! ### Properties of the reflected extension -/

theorem reflectAppend_pairwise (center : ℚ) (kept : List ℚ)
    (hk : kept.Pairwise (· < ·)) (hh : kept.headD 0 = center) (hne : kept ≠ []) :
    (((kept.drop 1).reverse.map (fun x => 2 * center - x)) ++ kept).Pairwise (· < ·) := by
  have hkept : kept = center :: kept.drop 1 := by
    rw [← hh]
    exact eq_headD_cons_drop hne
  have htail : ∀ x ∈ kept.drop 1, center < x := by
    intro x hx
    have := List.pairwise_cons.mp (hkept ▸ hk)
    exact this.1 x hx
  refine List.pairwise_append.mpr ⟨?_, hk, ?_⟩
  · apply List.Pairwise.map (R := fun a b : ℚ => b < a) _ (fun a b hab => by linarith)
    rw [List.pairwise_reverse]
    exact hk.sublist (List.drop_sublist _ _)
  · intro a ha b hb
    obtain ⟨x, hx, rfl⟩ := List.mem_map.mp ha
    have hxc : center < x := htail x (List.mem_reverse.mp hx)
    have hbc : center ≤ b := by
      rw [← hh]
      exact headD_le_of_mem hk hb
    linarith

theorem reflectAppend_count (center : ℚ) (kept : List ℚ)
    (hk : kept.Pairwise (· < ·)) (hh : kept.headD 0 = center) (hne : kept ≠ []) :
    (((kept.drop 1).reverse.map (fun x => 2 * center - x)) ++ kept).count center = 1 := by
  have hkept : kept = center :: kept.drop 1 := by
    rw [← hh]
    exact eq_headD_cons_drop hne
  have htail : ∀ x ∈ kept.drop 1, center < x := by
    intro x hx
    have := List.pairwise_cons.mp (hkept ▸ hk)
    exact this.1 x hx
  rw [List.count_append]
  have hL : ((kept.drop 1).reverse.map (fun x => 2 * center - x)).count center = 0 := by
    rw [List.count_eq_zero]
    intro hc
    obtain ⟨x, hx, hxc⟩ := List.mem_map.mp hc
    have hxlt : center < x := htail x (List.mem_reverse.mp hx)
    have hxeq : x = center := by linarith [hxc]
    exact absurd hxeq (ne_of_gt hxlt)
  have hR : kept.count center = 1 := by
    rw [hkept, List.count_cons_self]
    have : (kept.drop 1).count center = 0 := by
      rw [List.count_eq_zero]
      intro hc
      exact absurd rfl (ne_of_gt (htail center hc))
    omega
  omega

theorem reflectAppend_closed (center : ℚ) (kept : List ℚ) (hne : kept ≠ [])
    (hh : kept.headD 0 = center) {b : ℚ}
    (hb : b ∈ ((kept.drop 1).reverse.map (fun x => 2 * center - x)) ++ kept) :
    2 * center - b ∈ ((kept.drop 1).reverse.map (fun x => 2 * center - x)) ++ kept := by
  have hkept : kept = center :: kept.drop 1 := by
    rw [← hh]
    exact eq_headD_cons_drop hne
  rcases List.mem_append.mp hb with hb | hb
  · obtain ⟨x, hx, rfl⟩ := List.mem_map.mp hb
    apply List.mem_append.mpr
    right
    have : 2 * center - (2 * center - x) = x := by ring
    rw [this, hkept]
    exact List.mem_cons_of_mem _ (List.mem_reverse.mp hx)
  · rw [hkept] at hb
    rcases List.mem_cons.mp hb with rfl | hb
    · apply List.mem_append.mpr
      right
      have hbb : 2 * b - b = b := by ring
      rw [hbb, ← hh]
      exact headD_mem hne
    · apply List.mem_append.mpr
      left
      exact List.mem_map.mpr ⟨b, List.mem_reverse.mpr hb, rfl⟩

theorem reflectAppend_length (center : ℚ) (kept : List ℚ) :
    (((kept.drop 1).reverse.map (fun x => 2 * center - x)) ++ kept).length =
      (kept.length - 1) + kept.length := by
  simp [List.length_drop]

/-! ### Sortedness of the per-strategy initial boundaries -/

theorem rangeMap_pairwise (n : ℕ) (f : ℕ → ℚ) (hf : ∀ a b, a < b → b < n → f a < f b) :
    ((List.range n).map f).Pairwise (· < ·) := by
  rw [List.pairwise_map, List.pairwise_iff_getElem]
  intro i j hi hj hij
  simp only [List.getElem_range]
  exact hf i j hij (by simpa using hj)

theorem uniformCoords_sorted (center size dl : ℚ) (hdl : 0 < dl) :
    (uniformCoords center size dl).Pairwise (· < ·) ∧
      2 ≤ (uniformCoords center size dl).length := by
  unfold uniformCoords
  set numCells : ℕ := max (⌈size / dl⌉.toNat) 1 with hnc
  have hncpos : 0 < numCells := by omega
  have hdlsnap : 0 < (if 0 < size then size / (numCells : ℚ) else dl) := by
    split
    · next hpos => exact div_pos hpos (by exact_mod_cast hncpos)
    · exact hdl
  constructor
  · apply rangeMap_pairwise
    intro a b hab _
    have hcast : (a : ℚ) < (b : ℚ) := by exact_mod_cast hab
    have := mul_lt_mul_of_pos_right hcast hdlsnap
    linarith
  · simp only [List.length_map, List.length_range]
    omega

theorem scanl_add_head_le :
    ∀ {dls : List ℚ}, (∀ d ∈ dls, 0 < d) →
      ∀ (a : ℚ) (x : ℚ), x ∈ dls.scanl (· + ·) a → a ≤ x := by
  intro dls
  induction dls with
  | nil =>
    intro _ a x hx
    simp [List.scanl] at hx
    exact le_of_eq hx.symm
  | cons d t ih =>
    intro hpos a x hx
    rw [List.scanl_cons] at hx
    rcases List.mem_append.mp hx with hx | hx
    · have hxa : x = a := by simpa using hx
      exact le_of_eq hxa.symm
    · have hd : 0 < d := hpos d (List.mem_cons_self _ _)
      have := ih (fun e he => hpos e (List.mem_cons_of_mem _ he)) (a + d) x hx
      linarith

theorem scanl_add_pairwise :
    ∀ {dls : List ℚ}, (∀ d ∈ dls, 0 < d) →
      ∀ (a : ℚ), (dls.scanl (· + ·) a).Pairwise (· < ·) := by
  intro dls
  induction dls with
  | nil =>
    intro _ a
    simp [List.scanl]
  | cons d t ih =>
    intro hpos a
    rw [List.scanl_cons]
    have hd : 0 < d := hpos d (List.mem_cons_self _ _)
    have hpt : ∀ e ∈ t, 0 < e := fun e he => hpos e (List.mem_cons_of_mem _ he)
    refine List.pairwise_append.mpr ⟨List.pairwise_singleton _ _, ih hpt (a + d), ?_⟩
    intro x hx y hy
    have hxa : x = a := by simpa using hx
    have := scanl_add_head_le hpt (a + d) y hy
    rw [hxa]
    linarith

theorem customStepsCoords_sorted (center : ℚ) (dls : List ℚ) (off : Option ℚ)
    (hne : dls ≠ []) (hpos : ∀ d ∈ dls, 0 < d) :
    (customStepsCoords center dls off).Pairwise (· < ·) ∧
      2 ≤ (customStepsCoords center dls off).length := by
  have hbase : (dls.scanl (· + ·) 0).Pairwise (· < ·) := scanl_add_pairwise hpos 0
  have hlen : (dls.scanl (· + ·) 0).length = dls.length + 1 := List.length_scanl 0 dls
  have hdne : 1 ≤ dls.length := by
    cases dls with
    | nil => exact absurd rfl hne
    | cons d t => simp
  unfold customStepsCoords
  cases off with
  | none =>
    refine ⟨hbase.map _ (fun a b hab => by linarith), ?_⟩
    simpa [hlen] using hdne
  | some o =>
    refine ⟨hbase.map _ (fun a b hab => by linarith), ?_⟩
    simpa [hlen] using hdne

theorem autoRawBounds_pairwise {start : ℚ} {dls : List ℚ} (hpos : ∀ d ∈ dls, 0 < d) :
    (autoRawBounds start dls).Pairwise (· < ·) := by
  unfold autoRawBounds
  exact (scanl_add_pairwise hpos 0).map _ (fun a b hab => by linarith)

theorem autoRawBounds_length (start : ℚ) (dls : List ℚ) :
    (autoRawBounds start dls).length = dls.length + 1 := by
  unfold autoRawBounds
  simp [List.length_scanl]

theorem setFirstLast_getElem {l : List ℚ} {lo hi : ℚ} (h2 : 2 ≤ l.length) (j : ℕ)
    (hj : j < (setFirstLast l lo hi).length) :
    (setFirstLast l lo hi)[j] =
      if j = l.length - 1 then hi else if j = 0 then lo else l.getD j 0 := by
  have hjl : j < l.length := by simpa [setFirstLast] using hj
  unfold setFirstLast
  rw [List.getElem_set, List.getElem_set]
  by_cases hlast : j = l.length - 1
  · rw [if_pos (by simpa [List.length_set] using hlast.symm), if_pos hlast]
  · rw [if_neg (by simpa [List.length_set] using fun hc => hlast hc.symm), if_neg hlast]
    by_cases h0 : j = 0
    · rw [if_pos h0.symm, if_pos h0]
    · rw [if_neg (fun hc => h0 hc.symm), if_neg h0, List.getD_eq_getElem _ _ hjl]

theorem setFirstLast_length (l : List ℚ) (lo hi : ℚ) :
    (setFirstLast l lo hi).length = l.length := by
  simp [setFirstLast]

theorem autoFinalize_ok {axis : ℕ} {lo hi start : ℚ} {dls : List ℚ} {res : List ℚ}
    (hne : dls ≠ []) (hpos : ∀ d ∈ dls, 0 < d)
    (h1 : lo < (autoRawBounds start dls).getD 1 0)
    (h2 : (autoRawBounds start dls).getD ((autoRawBounds start dls).length - 2) 0 < hi)
    (hlohi : lo < hi)
    (hok : autoFinalize axis lo hi start dls = .ok res) :
    res.Pairwise (· < ·) ∧ 2 ≤ res.length := by
  set raw := autoRawBounds start dls with hraw
  have hrlen : raw.length = dls.length + 1 := autoRawBounds_length start dls
  have hr2 : 2 ≤ raw.length := by
    cases dls with
    | nil => exact absurd rfl hne
    | cons d t => rw [hrlen]; simp
  have hrs : raw.Pairwise (· < ·) := autoRawBounds_pairwise hpos
  have hres : res = setFirstLast raw lo hi := by
    simp only [autoFinalize] at hok
    rw [← hraw] at hok
    split at hok
    · exact (Except.ok.injEq _ _).mp hok.symm
    · exact absurd hok (by simp)
  have hlen : res.length = raw.length := by rw [hres, setFirstLast_length]
  constructor
  · rw [hres, List.pairwise_iff_getElem]
    intro i j hi2 hj2 hij
    rw [setFirstLast_getElem hr2 i hi2, setFirstLast_getElem hr2 j hj2]
    have hjraw : j < raw.length := by simpa [setFirstLast_length] using hj2
    have hiraw : i < raw.length := by simpa [setFirstLast_length] using hi2
    by_cases hjlast : j = raw.length - 1
    · have hine : ¬(i = raw.length - 1) := by omega
      rw [if_pos hjlast, if_neg hine]
      by_cases hi0 : i = 0
      · rw [if_pos hi0]
        exact hlohi
      · rw [if_neg hi0]
        rcases Nat.eq_or_lt_of_le (show i ≤ raw.length - 2 by omega) with hieq | hilt
        · rw [hieq]
          exact h2
        · calc raw.getD i 0 < raw.getD (raw.length - 2) 0 :=
                sorted_getD_lt hrs hilt (by omega)
            _ < hi := h2
    · have hjne0 : ¬(j = 0) := by omega
      have hine : ¬(i = raw.length - 1) := by omega
      rw [if_neg hjlast, if_neg hjne0, if_neg hine]
      by_cases hi0 : i = 0
      · rw [if_pos hi0]
        rcases Nat.eq_or_lt_of_le (show 1 ≤ j by omega) with hjeq | hjlt
        · rw [← hjeq]
          exact h1
        · calc lo < raw.getD 1 0 := h1
            _ < raw.getD j 0 := sorted_getD_lt hrs hjlt hjraw
      · rw [if_neg hi0]
        exact sorted_getD_lt hrs hij hjraw
  · omega

/-! ### Sortedness through the PML padding -/

theorem addPml_eq (m n : ℕ) (bounds : List ℚ) (h2 : 2 ≤ bounds.length) :
    addPmlToBounds m n bounds =
      ((List.range m).map (fun i =>
          bounds.getD 0 0 - ((m - i : ℕ) : ℚ) * (bounds.getD 1 0 - bounds.getD 0 0)))
        ++ bounds ++
      ((List.range n).map (fun i =>
          bounds.getLastD 0 +
            ((i + 1 : ℕ) : ℚ) * (bounds.getLastD 0 - bounds.getD (bounds.length - 2) 0))) := by
  unfold addPmlToBounds
  rw [if_neg (Nat.not_lt.mpr h2)]

theorem addPml_sorted (m n : ℕ) (bounds : List ℚ) (hs : bounds.Pairwise (· < ·))
    (h2 : 2 ≤ bounds.length) :
    (addPmlToBounds m n bounds).Pairwise (· < ·) ∧
      2 ≤ (addPmlToBounds m n bounds).length := by
  have hne : bounds ≠ [] := by
    intro hc
    rw [hc] at h2
    simp at h2
  have hd0 : 0 < bounds.getD 1 0 - bounds.getD 0 0 := by
    have := sorted_getD_lt hs (show 0 < 1 by omega) (by omega)
    linarith
  have hd1 : 0 < bounds.getLastD 0 - bounds.getD (bounds.length - 2) 0 := by
    have := sorted_getD_lt hs (show bounds.length - 2 < bounds.length - 1 by omega) (by omega)
    rw [getLastD_eq_getD hne 0 0]
    linarith
  rw [addPml_eq m n bounds h2]
  constructor
  · refine List.pairwise_append.mpr ⟨List.pairwise_append.mpr ⟨?_, hs, ?_⟩, ?_, ?_⟩
    · apply rangeMap_pairwise
      intro a b hab hbn
      have h1 : ((m - b : ℕ) : ℚ) < ((m - a : ℕ) : ℚ) := by
        have : m - b < m - a := by omega
        exact_mod_cast this
      nlinarith
    · intro a ha b hb
      obtain ⟨i, hi, rfl⟩ := List.mem_map.mp ha
      have him : 1 ≤ m - i := by
        have := List.mem_range.mp hi
        omega
      have hcast : (1 : ℚ) ≤ ((m - i : ℕ) : ℚ) := by exact_mod_cast him
      have hble : bounds.getD 0 0 ≤ b := by
        rw [← headD_eq_getD hne 0 0]
        exact headD_le_of_mem hs hb
      nlinarith
    · apply rangeMap_pairwise
      intro a b hab hbn
      have hcast : ((a + 1 : ℕ) : ℚ) < ((b + 1 : ℕ) : ℚ) := by exact_mod_cast by omega
      nlinarith
    · intro a ha b hb
      obtain ⟨x, hx, hxb⟩ := List.mem_map.mp hb
      have hxx : 1 ≤ ((x + 1 : ℕ) : ℚ) := by exact_mod_cast Nat.succ_le_succ (Nat.zero_le x)
      rcases List.mem_append.mp ha with ha | ha
      · obtain ⟨i, hi, rfl⟩ := List.mem_map.mp ha
        have him : 1 ≤ m - i := by
          have := List.mem_range.mp hi
          omega
        have hcast : (1 : ℚ) ≤ ((m - i : ℕ) : ℚ) := by exact_mod_cast him
        have hlastle : bounds.getD 0 0 ≤ bounds.getLastD 0 := by
          rw [← headD_eq_getD hne 0 0]
          exact headD_le_of_mem hs (getLastD_mem hne)
        rw [← hxb]
        nlinarith
      · have hble : a ≤ bounds.getLastD 0 := le_getLastD_of_mem hs ha
        rw [← hxb]
        nlinarith
  · simp only [List.length_append]
    omega

theorem relaxedBand_sorted (center size : ℚ) (bc : List ℚ)
    (hs : bc.Pairwise (· < ·))
    (hf2 : 2 ≤ (bandFiltered center size bc).length) :
    (relaxedBand center size bc).Pairwise (· < ·) ∧
      2 ≤ (relaxedBand center size bc).length := by
  obtain ⟨hPs, hPl, hd0, hd1, _, _, _, _, _, _⟩ := paddedBand_spec center size bc hs hf2
  set P := paddedBand center size bc with hP
  have hPne : P ≠ [] := by
    intro hc
    rw [hc] at hPl
    simp at hPl
  set d0 := (bandFiltered center size bc).getD 1 0 -
    (bandFiltered center size bc).getD 0 0 with hd0def
  set d1 := (bandFiltered center size bc).getLastD 0 -
    (bandFiltered center size bc).getD ((bandFiltered center size bc).length - 2) 0 with hd1def
  have hres1 : ∀ r1 : List ℚ,
      (r1 = P ∨ r1 = (P.headD 0 - d0) :: P) →
      r1.Pairwise (· < ·) ∧ 2 ≤ r1.length ∧ r1 ≠ [] := by
    intro r1 hr1
    rcases hr1 with rfl | rfl
    · exact ⟨hPs, hPl, hPne⟩
    · refine ⟨List.pairwise_cons.mpr ⟨?_, hPs⟩, by simp; omega, by simp⟩
      intro b hb
      have := headD_le_of_mem hPs hb
      linarith
  have hstep2 : ∀ r1 : List ℚ, r1.Pairwise (· < ·) → 2 ≤ r1.length → r1 ≠ [] →
      ∀ r2 : List ℚ, (r2 = r1 ∨ r2 = r1 ++ [r1.getLastD 0 + d1]) →
      r2.Pairwise (· < ·) ∧ 2 ≤ r2.length := by
    intro r1 hr1s hr1l hr1ne r2 hr2
    rcases hr2 with rfl | rfl
    · exact ⟨hr1s, hr1l⟩
    · refine ⟨List.pairwise_append.mpr ⟨hr1s, List.pairwise_singleton _ _, ?_⟩, ?_⟩
      · intro a ha b hb
        have hb' : b = r1.getLastD 0 + d1 := by simpa using hb
        have := le_getLastD_of_mem hr1s ha
        rw [hb']
        linarith
      · simp
        omega
  simp only [relaxedBand]
  rw [← hP, ← hd0def, ← hd1def]
  split
  · next hclose1 =>
    obtain ⟨ha, hb, hc⟩ := hres1 ((P.headD 0 - d0) :: P) (Or.inr rfl)
    split
    · next hclose2 => exact hstep2 _ ha hb hc _ (Or.inr rfl)
    · exact hstep2 _ ha hb hc _ (Or.inl rfl)
  · split
    · next hclose2 => exact hstep2 _ hPs hPl hPne _ (Or.inr rfl)
    · exact hstep2 _ hPs hPl hPne _ (Or.inl rfl)

theorem postprocess_ok_sorted {axis : ℕ} {center size : ℚ} {m : Bool}
    {bc res : List ℚ}
    (hs : bc.Pairwise (· < ·)) (h2 : 2 ≤ bc.length)
    (hok : postprocessUnalignedGrid axis center size m bc = .ok res) :
    res.Pairwise (· < ·) ∧ 2 ≤ res.length := by
  have h0 : ¬(bc.length = 0) := by omega
  by_cases hov : center + size / 2 < bc.headD 0 ∨ center - size / 2 > bc.getLastD 0
  · exfalso
    simp only [postprocessUnalignedGrid] at hok
    rw [if_neg h0, if_pos hov] at hok
    exact absurd hok (by simp)
  · by_cases hsz : size = 0
    · subst hsz
      push_neg at hov
      obtain ⟨i, hilen, heq, _, _⟩ :=
        postprocess_zero_size axis center m bc hs h2
          (by linarith [hov.1]) (by linarith [hov.2])
      rw [heq] at hok
      have hres : res = [bc.getD i 0, bc.getD (i + 1) 0] :=
        ((Except.ok.injEq _ _).mp hok).symm
      subst hres
      refine ⟨?_, by simp⟩
      refine List.pairwise_cons.mpr ⟨?_, List.pairwise_singleton _ _⟩
      intro b hb
      have hb' : b = bc.getD (i + 1) 0 := by simpa using hb
      rw [hb']
      exact sorted_getD_lt hs (by omega) hilen
    · by_cases hfl : (bandFiltered center size bc).length < 2
      · exfalso
        simp only [postprocessUnalignedGrid] at hok
        rw [if_neg h0, if_neg hov, if_neg hsz, if_pos hfl] at hok
        exact absurd hok (by simp)
      · have heq := postprocess_pos_eq axis center size m bc h0 hov hsz hfl
        rw [heq] at hok
        have hres := ((Except.ok.injEq _ _).mp hok).symm
        subst hres
        cases m
        · simp only [if_neg Bool.false_ne_true]
          exact
            let spec := paddedBand_spec center size bc hs (by omega)
            ⟨spec.1, spec.2.1⟩
        · simp only [if_pos rfl]
          exact relaxedBand_sorted center size bc hs (by omega)

theorem makeCoords_eq (axis : ℕ) (s : GridStrategy) (center size wavelength : ℚ)
    (symAxis : ℤ) (periodic : Bool) (numPml : ℕ × ℕ) :
    makeCoords axis s center size wavelength symAxis periodic numPml =
      (makeCoordsInitial axis center size wavelength symAxis
          (periodic && (symAxis == 0)) s).map
        (fun bc => addPmlToBounds numPml.1 numPml.2
          (if symAxis = 0 then bc else applySymmetry center bc)) := by
  simp only [makeCoords]
  cases h : makeCoordsInitial axis center size wavelength symAxis (periodic && (symAxis == 0)) s
  · rfl
  · rfl

/-- C1 (amended): for every strategy whose inputs satisfy the per-strategy
wellformedness hypotheses (`strategyCheck`: positive uniform step; strictly
increasing user boundaries of length at least two; nonempty positive user
steps; and, spec-modelled, a wellformed mesher output), and - when the axis
has non-zero symmetry - the additional hypothesis that the initial boundary
nearest the domain center is not its last boundary (`symFoldCheck`; the
counterexample shows the invariant fails without it), every boundary array
returned by `make_coords` without raising is strictly increasing and has at
least two entries, for every symmetry eigenvalue and PML layer counts. -/
theorem C1_boundary_invariant_amended
    (axis : ℕ) (s : GridStrategy) (center size wavelength : ℚ) (symAxis : ℤ)
    (periodic : Bool) (numPml : ℕ × ℕ) (res : List ℚ)
    (hstrat : strategyCheck center size wavelength symAxis s = true)
    (hsym : symAxis ≠ 0 →
      symFoldCheck center
        (makeCoordsInitial axis center size wavelength symAxis
          (periodic && (symAxis == 0)) s) = true)
    (hok : makeCoords axis s center size wavelength symAxis periodic numPml = .ok res) :
    res.Pairwise (· < ·) ∧ 2 ≤ res.length := by
  rw [makeCoords_eq] at hok
  cases heq : makeCoordsInitial axis center size wavelength symAxis
      (periodic && (symAxis == 0)) s with
  | error e =>
    rw [heq] at hok
    exact absurd hok (by simp [Except.map])
  | ok bc =>
    rw [heq] at hok
    simp only [Except.map, Except.ok.injEq] at hok
    have hbc : bc.Pairwise (· < ·) ∧ 2 ≤ bc.length := by
      cases s with
      | uniformG dl =>
        have hdl : 0 < dl := by simpa [strategyCheck] using hstrat
        have hbceq : bc = uniformCoords center size dl := by
          have := heq
          simp only [makeCoordsInitial, Except.ok.injEq] at this
          exact this.symm
        rw [hbceq]
        exact uniformCoords_sorted center size dl hdl
      | customBoundaries coords =>
        have hc : coords.Pairwise (· < ·) ∧ 2 ≤ coords.length := by
          simpa [strategyCheck] using hstrat
        exact postprocess_ok_sorted hc.1 hc.2 (by simpa [makeCoordsInitial] using heq)
      | customSteps dls off =>
        have hc : dls ≠ [] ∧ ∀ d ∈ dls, 0 < d := by
          simpa [strategyCheck] using hstrat
        have hcs := customStepsCoords_sorted center dls off hc.1 hc.2
        exact postprocess_ok_sorted hcs.1 hcs.2 (by simpa [makeCoordsInitial] using heq)
      | autoG minSteps mesher =>
        have hchk : autoOutCheck
            ((if symAxis = 0 then center else center + size / 4) -
              (if symAxis = 0 then size else size / 2) / 2)
            ((if symAxis = 0 then center else center + size / 4) +
              (if symAxis = 0 then size else size / 2) / 2)
            wavelength minSteps (mesher (periodic && (symAxis == 0))) = true := by
          simp only [strategyCheck, Bool.and_eq_true] at hstrat
          cases hflag : periodic && (symAxis == 0)
          · rw [hflag] at *
            exact hstrat.1
          · rw [hflag] at *
            exact hstrat.2
        simp only [makeCoordsInitial] at heq
        split at heq
        · next hlen1 =>
          have hbceq : bc = [(if symAxis = 0 then center else center + size / 4) -
              wavelength / minSteps / 2,
              (if symAxis = 0 then center else center + size / 4) +
              wavelength / minSteps / 2] := by
            simpa using heq.symm
          have hdl : 0 < wavelength / minSteps := by
            unfold autoOutCheck at hchk
            rw [if_pos hlen1] at hchk
            simpa using hchk
          rw [hbceq]
          refine ⟨List.pairwise_cons.mpr ⟨?_, List.pairwise_singleton _ _⟩, by simp⟩
          intro b hb
          have hb' : b = (if symAxis = 0 then center else center + size / 4) +
              wavelength / minSteps / 2 := by simpa using hb
          rw [hb']
          linarith
        · next hlen1 =>
          have hchk2 := hchk
          unfold autoOutCheck at hchk2
          rw [if_neg hlen1] at hchk2
          simp only [Bool.and_eq_true, List.all_eq_true, decide_eq_true_eq] at hchk2
          obtain ⟨⟨⟨⟨hdne, hdpos⟩, hlo⟩, hhi⟩, hlohi⟩ := hchk2
          exact autoFinalize_ok hdne (fun d hd => hdpos d hd) hlo hhi hlohi heq
    have hbcne : bc ≠ [] := by
      intro hc
      rw [hc] at hbc
      simp at hbc
    have hbc2 : (if symAxis = 0 then bc else applySymmetry center bc).Pairwise (· < ·) ∧
        2 ≤ (if symAxis = 0 then bc else applySymmetry center bc).length := by
      by_cases hsym0 : symAxis = 0
      · rw [if_pos hsym0]
        exact hbc
      · rw [if_neg hsym0]
        have hcheck := hsym hsym0
        rw [heq] at hcheck
        have hargmin : argminAbs center bc + 2 ≤ bc.length := by
          simpa [symFoldCheck] using hcheck
        obtain ⟨kept, hkeq, hks, hkne, hkh, hkl⟩ :=
          applySymmetry_eq center bc hbc.1 hbcne
        rw [hkeq]
        refine ⟨reflectAppend_pairwise center kept hks hkh hkne, ?_⟩
        rw [reflectAppend_length]
        omega
    rw [← hok]
    exact addPml_sorted numPml.1 numPml.2 _ hbc2.1 hbc2.2

/-- Witness for C1: a uniform grid of step 1 on the domain `[-1, 1]` with
symmetry 1 and one PML layer on each side satisfies all hypotheses and
produces the strictly increasing five-boundary array `[-2, -1, 0, 1, 2]`. -/
theorem C1_boundary_invariant_witness :
    List.Pairwise (· < ·) [(-2 : ℚ), -1, 0, 1, 2] ∧
      2 ≤ ([(-2 : ℚ), -1, 0, 1, 2] : List ℚ).length :=
  C1_boundary_invariant_amended 0 (.uniformG 1) 0 2 1 1 false (1, 1)
    [(-2 : ℚ), -1, 0, 1, 2] (by with_unfolding_all rfl)
    (fun _ => by with_unfolding_all rfl) (by with_unfolding_all rfl)

/-- C1 counterexample: with user-supplied boundaries `[0, 9.9]` on the domain
`[0, 10]` (center 5) and symmetry eigenvalue 1, `make_coords` returns without
raising, but the returned boundary array is the single boundary `[5]`: the
shift of line 80 recenters on the boundary nearest the center (9.9), the fold
of line 81 then keeps only that one boundary, and the PML step is a no-op on
arrays shorter than two.  This refutes the claim that every array returned
without raising has length at least 2. -/
theorem C1_boundary_invariant_refuted :
    makeCoords 0 (.customBoundaries [0, 99 / 10]) 5 10 1 1 false (0, 0) =
        .ok [5] ∧
      ¬(2 ≤ ([(5 : ℚ)] : List ℚ).length) :=
  ⟨by with_unfolding_all rfl, by decide⟩

/-- C3: on an axis of non-zero symmetry, the boundary array produced before
PML padding (the symmetry fold of grid_spec.py lines 76-82 applied to any
strictly increasing nonempty initial boundary array) contains the domain
center exactly once and is closed under reflection about the center. -/
theorem C3_symmetry_reflection (center : ℚ) (bc : List ℚ)
    (hs : bc.Pairwise (· < ·)) (hne : bc ≠ []) :
    (applySymmetry center bc).count center = 1 ∧
    ∀ b ∈ applySymmetry center bc,
      2 * center - b ∈ applySymmetry center bc := by
  obtain ⟨kept, hkeq, hks, hkne, hkh, _⟩ := applySymmetry_eq center bc hs hne
  rw [hkeq]
  exact ⟨reflectAppend_count center kept hks hkh hkne,
    fun b hb => reflectAppend_closed center kept hkne hkh hb⟩

/-- Witness for C3 at the initial boundaries `[-1/2, 0, 1/2, 1]` with
center 0. -/
theorem C3_symmetry_reflection_witness :
    (applySymmetry 0 [-1/2, 0, 1/2, 1]).count 0 = 1 ∧
    ∀ b ∈ applySymmetry 0 [-1/2, 0, 1/2, 1],
      2 * 0 - b ∈ applySymmetry 0 [-1/2, 0, 1/2, 1] :=
  C3_symmetry_reflection 0 [-1/2, 0, 1/2, 1]
    (by with_unfolding_all decide) (by with_unfolding_all decide)

/-- C8: on a zero-extent domain, the reconciler returns exactly the pair of
adjacent supplied boundaries that bracket the domain center (for any strictly
increasing supplied boundary array of length at least two that overlaps the
center). -/
theorem C8_zero_extent_bracket (axis : ℕ) (center : ℚ) (m : Bool) (bc : List ℚ)
    (hs : bc.Pairwise (· < ·)) (h2 : 2 ≤ bc.length)
    (hhead : bc.headD 0 ≤ center) (hlast : center ≤ bc.getLastD 0) :
    ∃ i, i + 1 < bc.length ∧
      postprocessUnalignedGrid axis center 0 m bc =
        .ok [bc.getD i 0, bc.getD (i + 1) 0] ∧
      bc.getD i 0 ≤ center ∧ center ≤ bc.getD (i + 1) 0 :=
  postprocess_zero_size axis center m bc hs h2 hhead hlast

/-- Witness for C8 at boundaries `[3, 4, 5]` with a zero-extent domain
centered at 5 (the center coincides with the last boundary). -/
theorem C8_zero_extent_bracket_witness :
    ∃ i, i + 1 < ([3, 4, 5] : List ℚ).length ∧
      postprocessUnalignedGrid 2 5 0 false [3, 4, 5] =
        .ok [([3, 4, 5] : List ℚ).getD i 0, ([3, 4, 5] : List ℚ).getD (i + 1) 0] ∧
      ([3, 4, 5] : List ℚ).getD i 0 ≤ 5 ∧ (5 : ℚ) ≤ ([3, 4, 5] : List ℚ).getD (i + 1) 0 :=
  C8_zero_extent_bracket 2 5 false [3, 4, 5] (by decide) (by decide)
    (by decide) (by decide)

/-- C10: the periodic wrap-around flag reaches the mesher only as
`periodic and symmetry[axis] == 0` (grid_spec.py line 63): with non-zero
symmetry the result is the same as with the periodic flag off, and in general
the mesher is consulted exactly at the flag value `periodic && symAxis == 0`. -/
theorem C10_periodic_only_without_symmetry (axis : ℕ) (minSteps : ℚ)
    (mesher : Bool → AutoOut) (center size wavelength : ℚ) (symAxis : ℤ)
    (periodic : Bool) (numPml : ℕ × ℕ) :
    (symAxis ≠ 0 →
      makeCoords axis (.autoG minSteps mesher) center size wavelength symAxis
          periodic numPml =
        makeCoords axis (.autoG minSteps mesher) center size wavelength symAxis
          false numPml) ∧
    makeCoords axis (.autoG minSteps mesher) center size wavelength symAxis
        periodic numPml =
      makeCoords axis (.autoG minSteps (fun _ => mesher (periodic && (symAxis == 0))))
        center size wavelength symAxis periodic numPml := by
  constructor
  · intro hsym
    have hflag : (symAxis == 0) = false := by
      simp [hsym]
    rw [makeCoords_eq, makeCoords_eq, hflag]
    simp
  · rw [makeCoords_eq, makeCoords_eq]
    rfl

/-- Witness for C10: with symmetry eigenvalue 1 and the periodic flag on, the
auto strategy produces the same coordinates as with the flag off. -/
theorem C10_periodic_only_without_symmetry_witness :
    makeCoords 0 (.autoG 10 (fun _ => AutoOut.mk [0] [])) 0 2 1 1 true (0, 0) =
      makeCoords 0 (.autoG 10 (fun _ => AutoOut.mk [0] [])) 0 2 1 1 false (0, 0) :=
  (C10_periodic_only_without_symmetry 0 10 (fun _ => AutoOut.mk [0] [])
    0 2 1 1 true (0, 0)).1 (by decide)

/-- C4 counterexample: the post-grading consistency failure of
`AutoGrid._make_coords_initial` raises `SetupError` - the same exception
class as the configuration error of `wavelength_from_sources` - so the
error is not of a distinct kind from the input-validation errors. -/
theorem C4_same_error_kind_refuted :
    autoFinalize 0 0 1 0 [1/2] = .error (.setupErr (autoGridMismatchMsg 0)) ∧
    wavelengthFromSources [] = .error (.setupErr waveNoSourceMsg) ∧
    PyErr.kind (.setupErr (autoGridMismatchMsg 0)) =
      PyErr.kind (.setupErr waveNoSourceMsg) :=
  ⟨by with_unfolding_all rfl, by with_unfolding_all rfl, rfl⟩

/-- C4 (amended): when the cumulative post-grading boundaries fail to
reproduce the domain edges within tolerance, the pipeline aborts with a
`SetupError` whose message (asking for a bug report) differs from every
input-validation message, but the exception class is the same `SetupError`
used for configuration and domain-mismatch errors, not a distinct kind. -/
theorem C4_internal_consistency_amended (axis : ℕ) (lo hi start : ℚ)
    (dls : List ℚ)
    (hfail : ¬(npIsClose ((autoRawBounds start dls).headD 0) lo = true ∧
        npIsClose ((autoRawBounds start dls).getLastD 0) hi = true)) :
    autoFinalize axis lo hi start dls =
      .error (.setupErr (autoGridMismatchMsg axis)) ∧
    (∀ a, a < 3 → autoGridMismatchMsg a ≠ waveNoSourceMsg ∧
      autoGridMismatchMsg a ≠ multiFreqMsg ∧
      autoGridMismatchMsg a ≠ domainMismatchMsg a) ∧
    PyErr.kind (.setupErr (autoGridMismatchMsg axis)) =
      PyErr.kind (.setupErr waveNoSourceMsg) := by
  refine ⟨?_, ?_, rfl⟩
  · simp only [autoFinalize]
    rw [if_neg]
    intro hc
    rw [Bool.and_eq_true] at hc
    exact hfail ⟨hc.1, hc.2⟩
  · intro a ha
    interval_cases a <;> exact ⟨by decide, by decide, by decide⟩

/-- Witness for C4 (amended) at a one-step grading whose upper end misses the
domain edge. -/
theorem C4_internal_consistency_witness :
    autoFinalize 0 0 1 0 [1/2] =
      .error (.setupErr (autoGridMismatchMsg 0)) ∧
    (∀ a, a < 3 → autoGridMismatchMsg a ≠ waveNoSourceMsg ∧
      autoGridMismatchMsg a ≠ multiFreqMsg ∧
      autoGridMismatchMsg a ≠ domainMismatchMsg a) ∧
    PyErr.kind (.setupErr (autoGridMismatchMsg 0)) =
      PyErr.kind (.setupErr waveNoSourceMsg) :=
  C4_internal_consistency_amended 0 0 1 0 [1/2]
    (by with_unfolding_all decide)

/-- C5: with no explicit wavelength and the graded-auto strategy in use, an
empty source list or sources of non-close central frequencies make
`make_grid` fail with a `SetupError` before any per-axis generator runs (the
error is independent of the generators), and otherwise the wavelength used
for generation is `C_0` divided by the common central frequency. -/
theorem C5_wavelength_resolution (freqs : List ℚ)
    (gen : Fin 3 → Option ℚ → Except PyErr (List ℚ)) :
    (freqs = [] ∨ ¬(freqs.all (fun f => npIsClose f (freqs.headD 0)) = true) →
      ∃ msg, makeGrid none true freqs gen = .error (.setupErr msg) ∧
        (msg = waveNoSourceMsg ∨ msg = multiFreqMsg)) ∧
    (freqs ≠ [] → freqs.all (fun f => npIsClose f (freqs.headD 0)) = true →
      makeGrid none true freqs gen =
        makeGrid (some (C_0 / freqs.headD 0)) true freqs gen) := by
  constructor
  · intro hbad
    rcases hbad with hnil | hnc
    · refine ⟨waveNoSourceMsg, ?_, Or.inl rfl⟩
      subst hnil
      rfl
    · have hlen : ¬(freqs.length = 0) := by
        intro hc
        apply hnc
        rw [List.length_eq_zero.mp hc]
        rfl
      refine ⟨multiFreqMsg, ?_, Or.inr rfl⟩
      simp only [makeGrid, wavelengthFromSources]
      rw [if_neg hlen, if_pos (by simpa using hnc)]
      rfl
  · intro hne hclose
    have hlen : ¬(freqs.length = 0) := by
      intro hc
      exact hne (List.length_eq_zero.mp hc)
    simp only [makeGrid, wavelengthFromSources]
    rw [if_neg hlen, if_neg (by simpa using hclose)]
    rfl

/-- Witness for C5: an empty source list yields the configuration
`SetupError` regardless of the per-axis generators. -/
theorem C5_wavelength_resolution_witness :
    ∃ msg, makeGrid none true [] (fun _ _ => .ok []) = .error (.setupErr msg) ∧
      (msg = waveNoSourceMsg ∨ msg = multiFreqMsg) :=
  (C5_wavelength_resolution [] (fun _ _ => .ok [])).1 (Or.inl rfl)

theorem addPml_getD (m n : ℕ) (bounds : List ℚ) (h2 : 2 ≤ bounds.length) (p : ℕ) :
    (addPmlToBounds m n bounds).getD p 0 =
      if p < m then
        bounds.getD 0 0 - ((m - p : ℕ) : ℚ) * (bounds.getD 1 0 - bounds.getD 0 0)
      else if p < m + bounds.length then bounds.getD (p - m) 0
      else if p < m + bounds.length + n then
        bounds.getLastD 0 + ((p - m - bounds.length + 1 : ℕ) : ℚ) *
          (bounds.getLastD 0 - bounds.getD (bounds.length - 2) 0)
      else 0 := by
  rw [addPml_eq m n bounds h2]
  set L := (List.range m).map (fun i =>
    bounds.getD 0 0 - ((m - i : ℕ) : ℚ) * (bounds.getD 1 0 - bounds.getD 0 0)) with hL
  set R := (List.range n).map (fun i =>
    bounds.getLastD 0 + ((i + 1 : ℕ) : ℚ) *
      (bounds.getLastD 0 - bounds.getD (bounds.length - 2) 0)) with hR
  have hLlen : L.length = m := by rw [hL]; simp
  have hRlen : R.length = n := by rw [hR]; simp
  by_cases h1 : p < m
  · rw [if_pos h1,
      List.getD_append _ _ _ _ (by simp only [List.length_append, hLlen]; omega),
      List.getD_append _ _ _ _ (by omega),
      hL, rangeMap_getD, if_pos h1]
  · rw [if_neg h1]
    by_cases hp2 : p < m + bounds.length
    · rw [if_pos hp2,
        List.getD_append _ _ _ _ (by simp only [List.length_append, hLlen]; omega),
        List.getD_append_right _ _ _ _ (by omega), hLlen]
    · rw [if_neg hp2,
        List.getD_append_right _ _ _ _
          (by simp only [List.length_append, hLlen]; omega)]
      simp only [List.length_append, hLlen]
      have hidx : p - (m + bounds.length) = p - m - bounds.length := by omega
      rw [hidx, hR, rangeMap_getD]
      by_cases hp3 : p < m + bounds.length + n
      · rw [if_pos hp3, if_pos (by omega)]
      · rw [if_neg hp3, if_neg (by omega)]

/-- C2: for every boundary array with at least two entries and every pair of
layer counts, PML padding keeps the original boundaries unchanged in the
middle, prepends exactly `nMinus` boundaries each spaced by the first
interior step, and appends exactly `nPlus` boundaries each spaced by the last
interior step; in particular, layers `(2, 3)` on the 5-boundary axis of
uniform step `0.2` yield 10 boundaries with two step-0.2 cells before and
three after. -/
theorem C2_pml_padding (bounds : List ℚ) (nMinus nPlus : ℕ)
    (h2 : 2 ≤ bounds.length) :
    (addPmlToBounds nMinus nPlus bounds).length =
      nMinus + bounds.length + nPlus ∧
    ((addPmlToBounds nMinus nPlus bounds).drop nMinus).take bounds.length =
      bounds ∧
    (∀ i, i < nMinus →
      (addPmlToBounds nMinus nPlus bounds).getD (i + 1) 0 -
        (addPmlToBounds nMinus nPlus bounds).getD i 0 =
        bounds.getD 1 0 - bounds.getD 0 0) ∧
    (∀ i, i < nPlus →
      (addPmlToBounds nMinus nPlus bounds).getD (nMinus + bounds.length + i) 0 -
        (addPmlToBounds nMinus nPlus bounds).getD
          (nMinus + bounds.length + i - 1) 0 =
        bounds.getLastD 0 - bounds.getD (bounds.length - 2) 0) ∧
    addPmlToBounds 2 3 [0, 1/5, 2/5, 3/5, 4/5] =
      [-2/5, -1/5, 0, 1/5, 2/5, 3/5, 4/5, 1, 6/5, 7/5] := by
  have hne : bounds ≠ [] := by
    intro hc
    rw [hc] at h2
    simp at h2
  refine ⟨?_, ?_, ?_, ?_, by with_unfolding_all rfl⟩
  · rw [addPml_eq nMinus nPlus bounds h2]
    simp only [List.length_append, List.length_map, List.length_range]
  · rw [addPml_eq nMinus nPlus bounds h2, List.append_assoc]
    set L := (List.range nMinus).map (fun i =>
        bounds.getD 0 0 - ((nMinus - i : ℕ) : ℚ) *
          (bounds.getD 1 0 - bounds.getD 0 0)) with hLdef
    have hLlen : L.length = nMinus := by rw [hLdef]; simp
    rw [← hLlen, List.drop_left, List.take_left]
  · intro i hi
    rw [addPml_getD nMinus nPlus bounds h2 (i + 1),
      addPml_getD nMinus nPlus bounds h2 i, if_pos hi]
    rcases Nat.lt_or_ge (i + 1) nMinus with hi1 | hi1
    · rw [if_pos hi1]
      have hc : ((nMinus - i : ℕ) : ℚ) = ((nMinus - (i + 1) : ℕ) : ℚ) + 1 := by
        have hn : nMinus - i = (nMinus - (i + 1)) + 1 := by omega
        rw [hn]
        push_cast
        ring
      rw [hc]
      ring
    · have hieq : i + 1 = nMinus := by omega
      rw [if_neg (by omega), if_pos (by omega), hieq]
      have hz : nMinus - nMinus = 0 := by omega
      rw [hz]
      have hc : ((nMinus - i : ℕ) : ℚ) = 1 := by
        have hn : nMinus - i = 1 := by omega
        rw [hn]
        push_cast
        ring
      rw [hc]
      ring
  · intro i hi
    rw [addPml_getD nMinus nPlus bounds h2 (nMinus + bounds.length + i),
      addPml_getD nMinus nPlus bounds h2 (nMinus + bounds.length + i - 1),
      if_neg (by omega), if_neg (by omega), if_pos (by omega)]
    rcases Nat.eq_or_lt_of_le (Nat.zero_le i) with hi0 | hi0
    · rw [← hi0]
      rw [if_neg (by omega), if_pos (by omega)]
      have hidx : nMinus + bounds.length + 0 - 1 - nMinus = bounds.length - 1 := by
        omega
      rw [hidx, ← getLastD_eq_getD hne 0 0]
      have hc : ((nMinus + bounds.length + 0 - nMinus - bounds.length + 1 : ℕ) : ℚ)
          = 1 := by
        have hn : nMinus + bounds.length + 0 - nMinus - bounds.length + 1 = 1 := by
          omega
        rw [hn]
        push_cast
        ring
      rw [hc]
      ring
    · rw [if_neg (by omega), if_neg (by omega), if_pos (by omega)]
      have hc : ((nMinus + bounds.length + i - nMinus - bounds.length + 1 : ℕ) : ℚ)
          = ((nMinus + bounds.length + i - 1 - nMinus - bounds.length + 1 : ℕ) : ℚ)
            + 1 := by
        have hn : nMinus + bounds.length + i - nMinus - bounds.length + 1 =
            (nMinus + bounds.length + i - 1 - nMinus - bounds.length + 1) + 1 := by
          omega
        rw [hn]
        push_cast
        ring
      rw [hc]
      ring

/-- Witness for C2 at the two-boundary array `[0, 1]` with one layer on each
side. -/
theorem C2_pml_padding_witness :
    (addPmlToBounds 1 1 [(0 : ℚ), 1]).length = 1 + ([(0 : ℚ), 1]).length + 1 ∧
    ((addPmlToBounds 1 1 [(0 : ℚ), 1]).drop 1).take ([(0 : ℚ), 1]).length =
      [(0 : ℚ), 1] ∧
    (∀ i, i < 1 →
      (addPmlToBounds 1 1 [(0 : ℚ), 1]).getD (i + 1) 0 -
        (addPmlToBounds 1 1 [(0 : ℚ), 1]).getD i 0 =
        ([(0 : ℚ), 1]).getD 1 0 - ([(0 : ℚ), 1]).getD 0 0) ∧
    (∀ i, i < 1 →
      (addPmlToBounds 1 1 [(0 : ℚ), 1]).getD (1 + ([(0 : ℚ), 1]).length + i) 0 -
        (addPmlToBounds 1 1 [(0 : ℚ), 1]).getD
          (1 + ([(0 : ℚ), 1]).length + i - 1) 0 =
        ([(0 : ℚ), 1]).getLastD 0 - ([(0 : ℚ), 1]).getD (([(0 : ℚ), 1]).length - 2) 0) ∧
    addPmlToBounds 2 3 [0, 1/5, 2/5, 3/5, 4/5] =
      [-2/5, -1/5, 0, 1/5, 2/5, 3/5, 4/5, 1, 6/5, 7/5] :=
  C2_pml_padding [(0 : ℚ), 1] 1 1 (by decide)

/-- C9: a uniform grid of positive step on a positive-size domain has exactly
`ceil(size / dl)` equal cells whose boundaries start at `center - size/2`,
end exactly at `center + size/2`, and are spaced by `size / ceil(size / dl)`;
in particular `dl = 0.1` on a unit domain gives the 11 boundaries
`[-0.5, -0.4, ..., 0.5]` around center 0. -/
theorem C9_uniform_grid (center size dl : ℚ) (hdl : 0 < dl) (hsz : 0 < size) :
    (uniformCoords center size dl).length = (⌈size / dl⌉).toNat + 1 ∧
    (uniformCoords center size dl).headD 0 = center - size / 2 ∧
    (uniformCoords center size dl).getLastD 0 = center + size / 2 ∧
    (∀ i, i + 1 < (uniformCoords center size dl).length →
      (uniformCoords center size dl).getD (i + 1) 0 -
        (uniformCoords center size dl).getD i 0 =
        size / (((⌈size / dl⌉).toNat : ℕ) : ℚ)) ∧
    uniformCoords 0 1 (1 / 10) =
      [-1/2, -2/5, -3/10, -1/5, -1/10, 0, 1/10, 1/5, 3/10, 2/5, 1/2] := by
  have hceil : 0 < ⌈size / dl⌉ := Int.ceil_pos.mpr (div_pos hsz hdl)
  have hncpos : 0 < (⌈size / dl⌉).toNat := by omega
  have hnum : max (⌈size / dl⌉).toNat 1 = (⌈size / dl⌉).toNat := by omega
  have hncQ : (((⌈size / dl⌉).toNat : ℕ) : ℚ) ≠ 0 := by
    exact_mod_cast Nat.pos_iff_ne_zero.mp hncpos
  have hgd : ∀ i, i < (⌈size / dl⌉).toNat + 1 →
      (uniformCoords center size dl).getD i 0 =
        center - size / 2 + (i : ℚ) * (size / (((⌈size / dl⌉).toNat : ℕ) : ℚ)) := by
    intro i hilt
    simp only [uniformCoords, hnum]
    rw [rangeMap_getD, if_pos (by omega), if_pos hsz]
  have hlen : (uniformCoords center size dl).length = (⌈size / dl⌉).toNat + 1 := by
    simp only [uniformCoords, hnum, List.length_map, List.length_range]
  have hneu : uniformCoords center size dl ≠ [] := by
    intro hc
    rw [hc] at hlen
    simp at hlen
  refine ⟨hlen, ?_, ?_, ?_, by with_unfolding_all rfl⟩
  · rw [headD_eq_getD hneu 0 0, hgd 0 (by omega)]
    push_cast
    ring
  · rw [getLastD_eq_getD hneu 0 0, hlen]
    have hs : (⌈size / dl⌉).toNat + 1 - 1 = (⌈size / dl⌉).toNat := by omega
    rw [hs, hgd (⌈size / dl⌉).toNat (by omega)]
    field_simp
    ring
  · intro i hilt
    rw [hlen] at hilt
    rw [hgd (i + 1) (by omega), hgd i (by omega)]
    push_cast
    ring

/-- Witness for C9 at step `1/10` on the unit domain centered at 0. -/
theorem C9_uniform_grid_witness :
    (uniformCoords 0 1 (1 / 10)).length = (⌈(1 : ℚ) / (1 / 10)⌉).toNat + 1 ∧
    (uniformCoords 0 1 (1 / 10)).headD 0 = 0 - 1 / 2 ∧
    (uniformCoords 0 1 (1 / 10)).getLastD 0 = 0 + 1 / 2 ∧
    (∀ i, i + 1 < (uniformCoords 0 1 (1 / 10)).length →
      (uniformCoords 0 1 (1 / 10)).getD (i + 1) 0 -
        (uniformCoords 0 1 (1 / 10)).getD i 0 =
        1 / (((⌈(1 : ℚ) / (1 / 10)⌉).toNat : ℕ) : ℚ)) ∧
    uniformCoords 0 1 (1 / 10) =
      [-1/2, -2/5, -3/10, -1/5, -1/10, 0, 1/10, 1/5, 3/10, 2/5, 1/2] :=
  C9_uniform_grid 0 1 (1 / 10) (by norm_num) (by norm_num)

/-- C6 counterexample: the supplied boundaries `[-10, 10]` overlap the
domain `[-1, 1]`, but both fall outside the tolerance band, so none remain
after dropping; the code then indexes the empty filtered array and fails
with an `IndexError`, not with the domain-mismatch `SetupError` the claim
promises. -/
theorem C6_band_filter_refuted :
    postprocessUnalignedGrid 0 0 2 false [-10, 10] = .error .indexErr ∧
    PyErr.kind .indexErr ≠ PyErr.kind (.setupErr (domainMismatchMsg 0)) ∧
    bandFiltered 0 2 [-10, 10] = [] :=
  ⟨by with_unfolding_all rfl, by decide, by with_unfolding_all rfl⟩

/-- C6 (amended): out-of-band boundaries are dropped and (without the
machine-error relaxation) every returned boundary lies in the band; a
supplied sequence that does not overlap the domain at all fails with the
domain-mismatch `SetupError` naming the axis (the three axis messages are
distinct); but when the sequence overlaps the domain and fewer than two
boundaries remain in the band of a positive-extent domain, the operation
fails with an `IndexError` - a different kind from the domain-mismatch
error - and in all these cases no boundary array is returned. -/
theorem C6_band_filter_amended (axis : ℕ) (center size : ℚ) (m : Bool)
    (bc : List ℚ) :
    (bc ≠ [] →
      (center + size / 2 < bc.headD 0 ∨ center - size / 2 > bc.getLastD 0) →
      postprocessUnalignedGrid axis center size m bc =
        .error (.setupErr (domainMismatchMsg axis))) ∧
    (domainMismatchMsg 0 ≠ domainMismatchMsg 1 ∧
      domainMismatchMsg 0 ≠ domainMismatchMsg 2 ∧
      domainMismatchMsg 1 ≠ domainMismatchMsg 2) ∧
    (¬(center + size / 2 < bc.headD 0 ∨ center - size / 2 > bc.getLastD 0) →
      ¬(size = 0) → (bandFiltered center size bc).length < 2 →
      postprocessUnalignedGrid axis center size m bc = .error .indexErr ∧
        PyErr.kind .indexErr ≠ PyErr.kind (.setupErr (domainMismatchMsg axis))) ∧
    (bc.Pairwise (· < ·) → ¬(size = 0) → m = false →
      ∀ res, postprocessUnalignedGrid axis center size m bc = .ok res →
        ∀ x ∈ res, center - size / 2 ≤ x ∧ x ≤ center + size / 2) := by
  refine ⟨?_, ⟨by decide, by decide, by decide⟩, ?_, ?_⟩
  · intro hne hov
    have h0 : ¬(bc.length = 0) := by
      intro hc
      exact hne (List.length_eq_zero.mp hc)
    simp only [postprocessUnalignedGrid]
    rw [if_neg h0, if_pos hov]
  · intro hov hsz hfl
    refine ⟨?_, (by decide : ("IndexError" : String) ≠ "SetupError")⟩
    by_cases h0 : bc.length = 0
    · simp only [postprocessUnalignedGrid]
      rw [if_pos h0]
    · simp only [postprocessUnalignedGrid]
      rw [if_neg h0, if_neg hov, if_neg hsz, if_pos hfl]
  · intro hs hsz hm res hok x hx
    subst hm
    by_cases h0 : bc.length = 0
    · exfalso
      simp only [postprocessUnalignedGrid] at hok
      rw [if_pos h0] at hok
      exact absurd hok (by simp)
    · by_cases hov : center + size / 2 < bc.headD 0 ∨
          center - size / 2 > bc.getLastD 0
      · exfalso
        simp only [postprocessUnalignedGrid] at hok
        rw [if_neg h0, if_pos hov] at hok
        exact absurd hok (by simp)
      · by_cases hfl : (bandFiltered center size bc).length < 2
        · exfalso
          simp only [postprocessUnalignedGrid] at hok
          rw [if_neg h0, if_neg hov, if_neg hsz, if_pos hfl] at hok
          exact absurd hok (by simp)
        · have heq := postprocess_pos_eq axis center size false bc h0 hov hsz hfl
          rw [heq] at hok
          have hres : res = paddedBand center size bc := by
            simpa using ((Except.ok.injEq _ _).mp hok).symm
          subst hres
          exact (paddedBand_spec center size bc hs (by omega)).2.2.2.2.2.2.2.2.1 x hx

/-- Witness for C6 at the non-overlapping boundaries `[5, 6]` on the domain
`[-1, 1]` along the y axis. -/
theorem C6_band_filter_witness :
    postprocessUnalignedGrid 1 0 2 false [5, 6] =
      .error (.setupErr (domainMismatchMsg 1)) :=
  (C6_band_filter_amended 1 0 2 false [5, 6]).1 (by decide)
    (by with_unfolding_all decide)

/-- C7 counterexample: on the domain `[-1, 1]`, the supplied boundary
`-1 - 1e-6` is dropped for being only epsilon outside the band (it is
`np.isclose` to the domain minimum), yet with the machine-error relaxation
off - which is how `CustomGridBoundaries._make_coords_initial` always calls
the reconciler - it is never restored: the returned array does not contain
it.  This refutes the claim that the reconciler restores such a boundary for
every user-supplied boundary sequence. -/
theorem C7_padding_refuted :
    makeCoordsInitial 0 0 2 1 0 false
        (.customBoundaries [-1 - 1/1000000, -1 + 2/1000000, -1 + 3/1000000, 1]) =
      .ok [-1, -1 + 1/1000000, -1 + 2/1000000, -1 + 3/1000000, 1] ∧
    npIsClose (-1 - 1/1000000) (-1) = true ∧
    ((-1 - 1/1000000 : ℚ) ∈
        ([-1, -1 + 1/1000000, -1 + 2/1000000, -1 + 3/1000000, 1] : List ℚ) → False) ∧
    postprocessUnalignedGrid 0 0 2 true
        [-1 - 1/1000000, -1 + 2/1000000, -1 + 3/1000000, 1] =
      .ok [-1 - 1/1000000, -1, -1 + 1/1000000, -1 + 2/1000000, -1 + 3/1000000, 1] :=
  ⟨by with_unfolding_all rfl, by with_unfolding_all rfl,
    by with_unfolding_all decide, by with_unfolding_all rfl⟩

/-- C7 (amended): for every strictly increasing user-supplied boundary
sequence of which at least two boundaries survive the band filter of a
positive-extent overlapping domain, the reconciler keeps the surviving
boundaries and pads front and back by repeating the first and last observed
steps until one more step would leave the domain (first boundary within one
first-step of the domain minimum, last within one last-step of the maximum);
the epsilon-restoration pass runs only when machine-error relaxation is
enabled (`CustomGrid` with `custom_offset`; `CustomGridBoundaries` disables
it), in which case the restored boundary becomes the head. -/
theorem C7_padding_amended (axis : ℕ) (center size : ℚ) (bc : List ℚ)
    (hs : bc.Pairwise (· < ·))
    (h0 : ¬(bc.length = 0))
    (hov : ¬(center + size / 2 < bc.headD 0 ∨ center - size / 2 > bc.getLastD 0))
    (hsz : ¬(size = 0))
    (hf2 : 2 ≤ (bandFiltered center size bc).length) :
    postprocessUnalignedGrid axis center size false bc =
      .ok (paddedBand center size bc) ∧
    postprocessUnalignedGrid axis center size true bc =
      .ok (relaxedBand center size bc) ∧
    (bandFiltered center size bc).IsInfix (paddedBand center size bc) ∧
    center - size / 2 ≤ (paddedBand center size bc).headD 0 ∧
    (paddedBand center size bc).headD 0 <
      center - size / 2 + ((bandFiltered center size bc).getD 1 0 -
        (bandFiltered center size bc).getD 0 0) ∧
    (paddedBand center size bc).getLastD 0 ≤ center + size / 2 ∧
    center + size / 2 < (paddedBand center size bc).getLastD 0 +
      ((bandFiltered center size bc).getLastD 0 -
        (bandFiltered center size bc).getD
          ((bandFiltered center size bc).length - 2) 0) ∧
    (npIsClose ((paddedBand center size bc).headD 0 -
          ((bandFiltered center size bc).getD 1 0 -
            (bandFiltered center size bc).getD 0 0))
        (center - size / 2) = true →
      (relaxedBand center size bc).headD 0 =
        (paddedBand center size bc).headD 0 -
          ((bandFiltered center size bc).getD 1 0 -
            (bandFiltered center size bc).getD 0 0)) := by
  have hfl : ¬((bandFiltered center size bc).length < 2) := by omega
  obtain ⟨hPs, hPl, hd0, hd1, hhge, hhlt, hlle, hlgt, hband, hinf⟩ :=
    paddedBand_spec center size bc hs hf2
  refine ⟨?_, ?_, hinf, hhge, by linarith, hlle, hlgt, ?_⟩
  · rw [postprocess_pos_eq axis center size false bc h0 hov hsz hfl]
    simp
  · rw [postprocess_pos_eq axis center size true bc h0 hov hsz hfl]
    simp
  · intro hclose
    simp only [relaxedBand]
    rw [if_pos hclose]
    split
    · rw [headD_append_of_ne_nil (by simp), List.headD_cons]
    · rw [List.headD_cons]

/-- Witness for C7 at the boundaries `[0, 1, 2]` on the domain `[0, 2]`
(center 1, size 2). -/
theorem C7_padding_amended_witness :
    postprocessUnalignedGrid 1 1 2 false [0, 1, 2] =
      .ok (paddedBand 1 2 [0, 1, 2]) ∧
    postprocessUnalignedGrid 1 1 2 true [0, 1, 2] =
      .ok (relaxedBand 1 2 [0, 1, 2]) ∧
    (bandFiltered 1 2 [0, 1, 2]).IsInfix (paddedBand 1 2 [0, 1, 2]) ∧
    1 - 2 / 2 ≤ (paddedBand 1 2 [0, 1, 2]).headD 0 ∧
    (paddedBand 1 2 [0, 1, 2]).headD 0 <
      1 - 2 / 2 + ((bandFiltered 1 2 [0, 1, 2]).getD 1 0 -
        (bandFiltered 1 2 [0, 1, 2]).getD 0 0) ∧
    (paddedBand 1 2 [0, 1, 2]).getLastD 0 ≤ 1 + 2 / 2 ∧
    1 + 2 / 2 < (paddedBand 1 2 [0, 1, 2]).getLastD 0 +
      ((bandFiltered 1 2 [0, 1, 2]).getLastD 0 -
        (bandFiltered 1 2 [0, 1, 2]).getD
          ((bandFiltered 1 2 [0, 1, 2]).length - 2) 0) ∧
    (npIsClose ((paddedBand 1 2 [0, 1, 2]).headD 0 -
          ((bandFiltered 1 2 [0, 1, 2]).getD 1 0 -
            (bandFiltered 1 2 [0, 1, 2]).getD 0 0)) (1 - 2 / 2) = true →
      (relaxedBand 1 2 [0, 1, 2]).headD 0 =
        (paddedBand 1 2 [0, 1, 2]).headD 0 -
          ((bandFiltered 1 2 [0, 1, 2]).getD 1 0 -
            (bandFiltered 1 2 [0, 1, 2]).getD 0 0)) :=
  C7_padding_amended 1 1 2 [0, 1, 2] (by with_unfolding_all decide) (by decide)
    (by with_unfolding_all decide) (by decide) (by with_unfolding_all decide)

end GridSpecPy
